import Mathlib

/-
Verification of the simple-magic match engine (src/main.rs).

The Rust source is shallowly embedded below.  Machine integers (u64, usize,
i64) are modelled as Nat and Int; `Vec<T>` as `List T` keeping the Rust
element order (so `Vec::pop` removes the LAST element of the list, which is
the top of the library); Rust panics (assert!, expect, panic!, index out of
bounds) are modelled by `Option`-returning functions yielding `none`.
The `Player` trait-like enum of concrete strategies is abstracted into a
`Strategy` record of pure decision functions, exactly the six decision
points the engine calls.  The observer (`Printout`) is modelled by the
`printout` field of `GState` plus a pure snapshot function
`handle_printout`; the Rust function only reads state and writes to stdout.
-/

namespace SimpleMagic

/-- Card model: `Card::Land` or `Card::Creature(CreatureCard)`. -/
structure CreatureCard where
  cmc : Nat
  pow : Nat
  tou : Nat
deriving DecidableEq, Repr

inductive Card where
  | land : Card
  | creature (cc : CreatureCard) : Card
deriving DecidableEq, Repr

/-- Allow-list of legal (cmc, pow, tou) stat lines, from `CreatureCard::try_new`. -/
def allowedCpt : List (Nat × Nat × Nat) :=
  [(0, 1, 1), (0, 0, 3), (1, 2, 2), (1, 0, 4), (2, 3, 3), (2, 1, 5), (2, 0, 6),
   (3, 5, 4), (3, 4, 5), (3, 0, 8), (4, 6, 6), (4, 2, 10), (4, 0, 13),
   (5, 10, 10), (9, 11, 9), (9, 7, 11), (10, 16, 16)]

/-- Embedding of `CreatureCard::try_new`: `Err(())` becomes `none`. -/
def CreatureCard.tryNew (cmc pow tou : Nat) : Option CreatureCard :=
  if (cmc, pow, tou) ∈ allowedCpt then some ⟨cmc, pow, tou⟩ else none

/-- Battlefield permanent, from `struct Creature`. -/
structure Creature where
  cmc : Nat
  pow : Nat
  tou : Nat
  tapped : Bool
deriving DecidableEq, Repr

/-- Embedding of `Creature::new`: untapped instance of a creature card. -/
def Creature.new (cc : CreatureCard) : Creature :=
  { cmc := cc.cmc, pow := cc.pow, tou := cc.tou, tapped := false }

inductive MuliganChoice where
  | muligan : MuliganChoice
  | keepExcept (remove : List Nat) : MuliganChoice

/-- Response for the main phase, from `struct MainPhasePlays`. -/
structure MainPhasePlays where
  land : Bool
  cards : List Nat

inductive DrawResult where
  | empty : DrawResult
  | nonempty : DrawResult
deriving DecidableEq, Repr

/-- Test used in the source as `c == &Card::Land`. -/
def Card.isLand : Card → Bool
  | Card.land => true
  | Card.creature _ => false

/-- Per-player game state, from `struct PlayerState`.  The Rust struct owns
its `Player` (strategy); here strategies are passed separately so the state
is plain data.  The extra `removed` field is pure instrumentation, absent
from the source: it counts cards discarded by `handle_discard` plus
creatures removed by `die`, so that card-count conservation can be stated;
no operation reads it. -/
structure PState where
  deck : List Card
  hand : List Card
  numLands : Nat
  creatures : List Creature
  life : Int
  removed : Nat
deriving DecidableEq, Repr

/-- Embedding of `PlayerState::draw`: pop the top (last) card of the deck
into the hand; an empty deck reports `Empty` and changes nothing. -/
def draw (s : PState) : DrawResult × PState :=
  match s.deck.getLast? with
  | none => (DrawResult.empty, s)
  | some card =>
      (DrawResult.nonempty,
        { s with deck := s.deck.dropLast, hand := s.hand ++ [card] })

/-- Embedding of `PlayerState::sort_hand`: a stable sort by the key
`land ↦ 1, creature ↦ 0`, which is exactly the stable partition putting
non-lands (in order) before lands (in order). -/
def sortHand (s : PState) : PState :=
  { s with hand := s.hand.filter (fun c => !(Card.isLand c)) ++ s.hand.filter Card.isLand }

/-- Embedding of `PlayerState::untap`. -/
def untap (s : PState) : PState :=
  { s with creatures := s.creatures.map (fun c => { c with tapped := false }) }

/-- Embedding of the Rust `retain`-with-running-index idiom used by
`handle_main_phase_plays`, `handle_discard` and `die`: keep the element at
position `i` (counting from `start`) iff `pred i`. -/
def retainLoop (pred : Nat → Bool) : Nat → List α → List α
  | _, [] => []
  | i, a :: as => if pred i then a :: retainLoop pred (i + 1) as else retainLoop pred (i + 1) as

/-- Removal of the elements whose position is listed in `idxs`
(`retain(|_| { ... !idxs.contains(index) ... })` in the source). -/
def removeIndices (l : List α) (idxs : List Nat) : List α :=
  retainLoop (fun i => !(idxs.contains i)) 0 l

/-- Embedding of `PlayerState::handle_discard`.  The two `assert_eq!`
checks become the two guards (note `s.hand.length - 7` is the Rust
`usize` subtraction; when the hand is smaller than 7 the Rust assertion
cannot hold and this function returns `none`, as the panic does). -/
def handle_discard (s : PState) (discardIndices : List Nat) : Option PState :=
  if discardIndices.length = s.hand.length - 7 then
    let newHand := removeIndices s.hand discardIndices
    if newHand.length = 7 then
      some { s with hand := newHand, removed := s.removed + discardIndices.length }
    else none
  else none

/-- Embedding of `PlayerState::die`: remove the listed battlefield
creatures; the `assert_eq!` demands that exactly `|indices|` creatures
were removed. -/
def die (s : PState) (deadCreatures : List Nat) : Option PState :=
  let newCreatures := removeIndices s.creatures deadCreatures
  if s.creatures.length = newCreatures.length + deadCreatures.length then
    some { s with creatures := newCreatures, removed := s.removed + deadCreatures.length }
  else none

/-- Embedding of the attacker-tapping loop of `GameState::play`
(`assert!(attacker < len)`, `assert!(!tapped, "No double attacks")`,
then `tapped = true`, in declaration order). -/
def tapAttackers (creatures : List Creature) : List Nat → Option (List Creature)
  | [] => some creatures
  | a :: as =>
    match creatures.get? a with
    | none => none
    | some c =>
        if c.tapped then none
        else tapAttackers (creatures.set a { c with tapped := true }) as

/-- Land consumption of `PlayerState::handle_main_phase_plays`, on the hand
alone: find the first land (`position`, `expect` on failure), check every
card from it on is a land (`panic!("Creature after land")`), remove it. -/
def landPlay (hand : List Card) : Option (List Card) :=
  match hand.findIdx? Card.isLand with
  | none => none
  | some landPos =>
      if (hand.drop landPos).all Card.isLand then some (hand.eraseIdx landPos) else none

/-- Land part of `PlayerState::handle_main_phase_plays`: if a land is to be
played, consume it from the hand and increment `num_lands`. -/
def landBranch (s : PState) (land : Bool) : Option PState :=
  if land then
    match landPlay s.hand with
    | none => none
    | some newHand => some { s with hand := newHand, numLands := s.numLands + 1 }
  else some s

/-- Wording of the claim's land condition: some land is in the hand with
nothing but lands after it (equivalently, all cards from the first land on
are lands). -/
def LandOk (hand : List Card) : Prop :=
  ∃ pre post, hand = pre ++ Card.land :: post ∧
    (∀ c ∈ pre, c ≠ Card.land) ∧ (∀ c ∈ post, c = Card.land)

/-- Sum of the converted costs of the cards at the named hand positions
(0 for an out-of-range or non-creature position; the engine separately
requires every position to name a creature). -/
def cmcSumOf (hand : List Card) (cards : List Nat) : Nat :=
  (cards.map (fun i =>
    match hand.get? i with
    | some (Card.creature cc) => cc.cmc
    | _ => 0)).sum

/-- Cost-summing loop of `handle_main_phase_plays`: each named index must be
in bounds (`assert!`) and name a creature card (`panic!("Only cast
creatures")`); the costs are summed. -/
def computeTotalCmc (hand : List Card) : List Nat → Option Nat
  | [] => some 0
  | i :: is =>
    match hand.get? i with
    | some (Card.creature cc) => (computeTotalCmc hand is).map (fun rest => cc.cmc + rest)
    | _ => none

/-- Creature-casting loop of `handle_main_phase_plays`: push an untapped
`Creature::new` for each named index, in the given order. -/
def pushCreatures (hand : List Card) (creatures : List Creature) : List Nat → Option (List Creature)
  | [] => some creatures
  | i :: is =>
    match hand.get? i with
    | some (Card.creature cc) => pushCreatures hand (creatures ++ [Creature.new cc]) is
    | _ => none

/-- Embedding of `PlayerState::handle_main_phase_plays`.  The final guard is
the source's closing `assert_eq!(prior, hand.len() + cards.len(), "Play
correct number of cards")`. -/
def handle_main_phase_plays (s : PState) (p : MainPhasePlays) : Option PState :=
  match landBranch s p.land with
  | none => none
  | some s1 =>
    match computeTotalCmc s1.hand p.cards with
    | none => none
    | some totalCmc =>
      if totalCmc ≤ s1.numLands then
        match pushCreatures s1.hand s1.creatures p.cards with
        | none => none
        | some creatures1 =>
          if s1.hand.length = (removeIndices s1.hand p.cards).length + p.cards.length then
            some { s1 with creatures := creatures1, hand := removeIndices s1.hand p.cards }
          else none
      else none

/-- Single bottoming step of the mulligan keep: `hand.remove(i)` followed by
`deck.insert(0, card)` (position 0 of the Rust Vec is the bottom of the
library).  An out-of-range index is unreachable on the paths where this is
called (the caller's final length assertion would fail anyway). -/
def bottomIdx (s : PState) (i : Nat) : PState :=
  match s.hand.get? i with
  | some c => { s with hand := s.hand.eraseIdx i, deck := c :: s.deck }
  | none => s

/-- Bottoming loop of `do_muligans`: `for i in (0..n).rev()`, bottom the
hand card at `i` when `i` is listed in `remove`. -/
def bottomLoop (remove : List Nat) : Nat → PState → PState
  | 0, s => s
  | n + 1, s =>
      bottomLoop remove n (if remove.contains n then bottomIdx s n else s)

/-- Keep branch of `do_muligans`: `assert_eq!(remove.len(), num_muls)`,
`assert!(index < 7)` for each index, bottom the named cards from position 6
down to 0, then `assert_eq!(hand.len(), 7 - num_muls)`. -/
def muliganKeep (s : PState) (remove : List Nat) (numMuls : Nat) : Option PState :=
  if remove.length = numMuls ∧ ∀ i ∈ remove, i < 7 then
    let s1 := bottomLoop remove 7 s
    if s1.hand.length = 7 - numMuls then some s1 else none
  else none

/-- Draw loop of `do_muligans`: draw `n` cards, each draw asserted
`Nonempty`. -/
def drawN : Nat → PState → Option PState
  | 0, s => some s
  | n + 1, s =>
    match draw s with
    | (DrawResult.empty, _) => none
    | (DrawResult.nonempty, s1) => drawN n s1

/-- Mulligan loop of `PlayerState::do_muligans`, parameterised by the
shuffle (the source uses `thread_rng`; `shuffle m d` is the shuffling of
deck `d` before the hand for mulligan count `m` is drawn) and by the
strategy's `muligan_choice`.  `remaining` counts the loop iterations still
allowed, so the mulligan count is `7 - remaining`; the `remaining = 0` case
is the source's final `assert!(hand.is_empty())` after seven mulligans. -/
def doMuligansGo (shuffle : Nat → List Card → List Card)
    (choice : List Card → Nat → Bool → MuliganChoice) (isFirst : Bool) :
    Nat → PState → Option PState
  | 0, s => if s.hand.isEmpty then some s else none
  | r + 1, s =>
    let numMuls := 7 - (r + 1)
    let s1 := { s with deck := shuffle numMuls s.deck }
    match drawN 7 s1 with
    | none => none
    | some s2 =>
      match choice s2.hand numMuls isFirst with
      | MuliganChoice.keepExcept remove => muliganKeep s2 remove numMuls
      | MuliganChoice.muligan =>
          doMuligansGo shuffle choice isFirst r { s2 with deck := s2.deck ++ s2.hand, hand := [] }

/-- Embedding of `PlayerState::do_muligans` (entered with mulligan count 0,
up to 7 loop iterations). -/
def do_muligans (shuffle : Nat → List Card → List Card)
    (choice : List Card → Nat → Bool → MuliganChoice) (isFirst : Bool) (s : PState) :
    Option PState :=
  doMuligansGo shuffle choice isFirst 7 s

/-- Embedding of `struct PlayerView`, the read-only snapshot handed to
strategies. -/
structure PlayerView where
  numTurn : Nat
  hand : List Card
  numLands : Nat
  creatures : List Creature
  deckSize : Nat
  othHandSize : Nat
  othLands : Nat
  othCreatures : List Creature
  othDeckSize : Nat

/-- View construction, from `PlayerState::view_and_mut`. -/
def mkView (numTurn : Nat) (s oth : PState) : PlayerView :=
  { numTurn := numTurn, hand := s.hand, numLands := s.numLands, creatures := s.creatures,
    deckSize := s.deck.length, othHandSize := oth.hand.length, othLands := oth.numLands,
    othCreatures := oth.creatures, othDeckSize := oth.deck.length }

/-- Abstraction of the `Player` enum: the six strategy decision points, as
pure functions.  Blocking maps (`HashMap<usize, Vec<usize>>` in the source)
are represented as association lists in insertion order; a Rust `HashMap`
cannot hold a duplicate key, and the engine only ever builds and consumes
key-unique lists. -/
structure Strategy where
  attack : PlayerView → List Nat
  block : PlayerView → List Nat → List (Nat × Nat)
  orderBlockers : PlayerView → List (Nat × List Nat) → List (Nat × List Nat)
  mainPhase : PlayerView → MainPhasePlays
  discard : PlayerView → List Nat
  muliganChoice : List Card → Nat → Bool → MuliganChoice

/-- Association-list form of `entry(attacker).or_insert(vec![]).push(blocker)`. -/
def addPair (arr : List (Nat × List Nat)) (attacker blocker : Nat) : List (Nat × List Nat) :=
  if arr.any (fun e => e.1 == attacker) then
    arr.map (fun e => if e.1 == attacker then (e.1, e.2 ++ [blocker]) else e)
  else arr ++ [(attacker, [blocker])]

/-- Embedding of the blocking-validation loop of `GameState::play`: for each
`(blocker, attacker)` pair, in order, assert the attacker index is in
bounds of the attacking player's creatures, the blocker index is in bounds
of the defender's creatures, the blocker is untapped, and the blocker has
not blocked before; then record the assignment. -/
def buildArrangement (curLen : Nat) (othC : List Creature) (used : List Nat)
    (arr : List (Nat × List Nat)) : List (Nat × Nat) → Option (List (Nat × List Nat))
  | [] => some arr
  | (blocker, attacker) :: rest =>
    if attacker < curLen then
      match othC.get? blocker with
      | none => none
      | some c =>
          if c.tapped then none
          else if used.contains blocker then none
          else buildArrangement curLen othC (blocker :: used) (addPair arr attacker blocker) rest
    else none

/-- Mutual-containment test of two blocker lists, from the
ordered-blockers validation of `GameState::play`. -/
def sameElems (xs ys : List Nat) : Bool :=
  xs.all (fun i => ys.contains i) && ys.all (fun i => xs.contains i)

/-- Embedding of the ordered-blockers validation: same number of attackers,
every ordered key present in the arrangement, and each ordered blocker
list a reordering (same length, mutual containment) of the default one. -/
def checkOrdering (arrangement ordered : List (Nat × List Nat)) : Bool :=
  arrangement.length == ordered.length &&
  ordered.all (fun e =>
    match arrangement.find? (fun d => d.1 == e.1) with
    | none => false
    | some d => e.2.length == d.2.length && sameElems e.2 d.2)

/-- Embedding of `all_blockers.entry(attacker).or_insert(vec![])` over the
declared attackers: give every unblocked attacker an empty blocker list. -/
def addUnblocked (m : List (Nat × List Nat)) : List Nat → List (Nat × List Nat)
  | [] => m
  | a :: as => addUnblocked (if m.any (fun e => e.1 == a) then m else m ++ [(a, [])]) as

/-- Damage walk over one attacker's ordered blocker list, from
`GameState::play`: with the attacker's power as the remaining damage
budget, a blocker whose toughness exceeds the budget stops the walk
(`break`); otherwise its toughness is consumed and it is marked dead.
Returns the dead blockers, in order; `none` models an out-of-bounds index
panic. -/
def walkBlockers (othC : List Creature) : Nat → List Nat → Option (List Nat)
  | _, [] => some []
  | budget, b :: bs =>
    match othC.get? b with
    | none => none
    | some c =>
        if budget < c.tou then some []
        else (walkBlockers othC (budget - c.tou) bs).map (fun rest => b :: rest)

/-- Total power of the listed blockers (`blocker_damage_total` in the
source); `none` models an out-of-bounds index panic. -/
def blockerDamageTotal (othC : List Creature) : List Nat → Option Nat
  | [] => some 0
  | b :: bs =>
    match othC.get? b with
    | none => none
    | some c => (blockerDamageTotal othC bs).map (fun rest => c.pow + rest)

/-- Embedding of the damage loop of `GameState::play`: per attacker entry,
an empty blocker list turns the attacker's full power into life loss for
the defender; otherwise the blockers are walked for casualties and the
attacker dies iff the blockers' total power reaches its toughness.
Returns (total life loss, dead attacker indices, dead blocker indices). -/
def resolveCombat (curC othC : List Creature) :
    List (Nat × List Nat) → Option (Nat × List Nat × List Nat)
  | [] => some (0, [], [])
  | (attacker, blockers) :: rest =>
    match curC.get? attacker with
    | none => none
    | some ac =>
      if blockers.isEmpty then
        (resolveCombat curC othC rest).map (fun r => (ac.pow + r.1, r.2.1, r.2.2))
      else
        match walkBlockers othC ac.pow blockers with
        | none => none
        | some newDead =>
          match blockerDamageTotal othC blockers with
          | none => none
          | some total =>
            (resolveCombat curC othC rest).map (fun r =>
              ((r.1 : Nat),
               (if ac.tou ≤ total then [attacker] else []) ++ r.2.1,
               newDead ++ r.2.2))

inductive Winner where
  | player1 : Winner
  | player2 : Winner
deriving DecidableEq, Repr

/-- Per-turn result of the engine core: a strategy contract breach (Rust
panic), a decking loss, a life-loss win, or the two player states after a
completed turn. -/
inductive CoreRes where
  | breach : CoreRes
  | decked (w : Winner) (cur oth : PState) : CoreRes
  | lifeLoss (w : Winner) (cur oth : PState) : CoreRes
  | next (cur oth : PState) : CoreRes
deriving DecidableEq, Repr

def CoreRes.isBreach : CoreRes → Bool
  | CoreRes.breach => true
  | _ => false

/-- Main phase and discard phase of one turn of `GameState::play`
(`handle_main_phase_plays` on the strategy's plays; then, if the hand
exceeds 7 cards, the discard decision and `handle_discard`). -/
def afterDamage (sC : Strategy) (numTurn : Nat) (cur oth : PState) : CoreRes :=
  match handle_main_phase_plays cur (sC.mainPhase (mkView numTurn cur oth)) with
  | none => CoreRes.breach
  | some cur1 =>
    if 7 < cur1.hand.length then
      match handle_discard cur1 (sC.discard (mkView numTurn cur1 oth)) with
      | none => CoreRes.breach
      | some cur2 => CoreRes.next cur2 oth
    else CoreRes.next cur1 oth

/-- Combat-damage section of one turn: resolve damage over `allBlockers`,
remove the casualties on both sides, then end the match at once if the
defender's life is at or below zero (`Winner` is the attacking side). -/
def afterBlocks (sC : Strategy) (numTurn curIdx : Nat) (cur oth : PState)
    (allBlockers : List (Nat × List Nat)) : CoreRes :=
  match resolveCombat cur.creatures oth.creatures allBlockers with
  | none => CoreRes.breach
  | some r =>
    match die cur r.2.1, die { oth with life := oth.life - (r.1 : Int) } r.2.2 with
    | some cur1, some oth1 =>
        if oth1.life ≤ 0 then
          CoreRes.lifeLoss (if curIdx = 0 then Winner.player1 else Winner.player2) cur1 oth1
        else afterDamage sC numTurn cur1 oth1
    | _, _ => CoreRes.breach

/-- Block and order-blockers section of one turn: the defender's blocking
pairs are validated into an arrangement, the attacker orders the blockers,
the ordering is validated against the arrangement, and unblocked attackers
are added with empty blocker lists. -/
def afterAttack (sC sO : Strategy) (numTurn curIdx : Nat) (cur oth : PState)
    (attackers : List Nat) : CoreRes :=
  let pairs := sO.block (mkView numTurn oth cur) attackers
  match buildArrangement cur.creatures.length oth.creatures [] [] pairs with
  | none => CoreRes.breach
  | some arrangement =>
    let ordered := sC.orderBlockers (mkView numTurn cur oth) arrangement
    if checkOrdering arrangement ordered then
      afterBlocks sC numTurn curIdx cur oth (addUnblocked ordered attackers)
    else CoreRes.breach

/-- Post-draw part of one turn: sort the hand, get and validate the attack
declaration (tapping the attackers), then blocks and damage. -/
def afterDraw (sC sO : Strategy) (numTurn curIdx : Nat) (curD oth : PState) : CoreRes :=
  let cur := sortHand curD
  let attackers := sC.attack (mkView numTurn cur oth)
  match tapAttackers cur.creatures attackers with
  | none => CoreRes.breach
  | some tapped =>
      afterAttack sC sO numTurn curIdx { cur with creatures := tapped } oth attackers

/-- One full loop iteration of `GameState::play`, up to (excluding) the
player switch: untap, then the draw step (skipped for player 0 on turn 1;
an `Empty` draw ends the match at once with the opponent as winner), then
the rest of the turn. -/
def playTurnCore (sC sO : Strategy) (numTurn curIdx : Nat) (cur0 oth : PState) : CoreRes :=
  let cur := untap cur0
  if numTurn = 1 ∧ curIdx = 0 then
    afterDraw sC sO numTurn curIdx cur oth
  else
    match draw cur with
    | (DrawResult.empty, cur1) =>
        CoreRes.decked (if curIdx = 0 then Winner.player2 else Winner.player1) cur1 oth
    | (DrawResult.nonempty, cur1) => afterDraw sC sO numTurn curIdx cur1 oth

inductive Printout where
  | printAndPause : Printout
  | print : Printout
  | nothing : Printout
deriving DecidableEq, Repr

/-- Embedding of `struct GameState` (strategies passed separately). -/
structure GState where
  playerStates : PState × PState
  numTurn : Nat
  currentPlayerIndex : Nat
  printout : Printout
deriving DecidableEq, Repr

/-- Per-player slice of what `print_player`, `print_hand` and
`print_battlefield` display. -/
structure PSnap where
  life : Int
  deckSize : Nat
  hand : List Card
  numLands : Nat
  creatures : List Creature
deriving DecidableEq, Repr

/-- Snapshot emitted to the observer by `GameState::handle_printout`. -/
structure Snapshot where
  phase : String
  numTurn : Nat
  currentPlayerIndex : Nat
  state0 : PSnap
  state1 : PSnap
deriving DecidableEq, Repr

def psnap (s : PState) : PSnap :=
  { life := s.life, deckSize := s.deck.length, hand := s.hand,
    numLands := s.numLands, creatures := s.creatures }

/-- Embedding of `GameState::handle_printout`: it reads the game state and
emits a human-readable snapshot (stdout in the source), or nothing when the
observer is off; it never mutates the game state (`&self` in the source). -/
def handle_printout (g : GState) (phase : String) : List Snapshot :=
  match g.printout with
  | Printout.nothing => []
  | _ =>
      [{ phase := phase, numTurn := g.numTurn, currentPlayerIndex := g.currentPlayerIndex,
         state0 := psnap g.playerStates.1, state1 := psnap g.playerStates.2 }]

inductive TurnRes where
  | breach : TurnRes
  | decked (w : Winner) (g : GState) : TurnRes
  | lifeLoss (w : Winner) (g : GState) : TurnRes
  | next (g : GState) : TurnRes
deriving DecidableEq, Repr

/-- Reassembly of the two player states into the fixed 2-element array
(`states_mut` hands out (current, other); index 0 holds player 1). -/
def reassemble (g : GState) (i : Nat) (c o : PState) : GState :=
  { g with playerStates := if i = 0 then (c, o) else (o, c) }

/-- One iteration of the `loop` in `GameState::play`, including the final
player switch and turn increment.  `sA` and `sB` are the strategies bound
to player 1 and player 2. -/
def playTurn (sA sB : Strategy) (g : GState) : TurnRes :=
  let i := g.currentPlayerIndex
  let cur := if i = 0 then g.playerStates.1 else g.playerStates.2
  let oth := if i = 0 then g.playerStates.2 else g.playerStates.1
  let sC := if i = 0 then sA else sB
  let sO := if i = 0 then sB else sA
  match playTurnCore sC sO g.numTurn i cur oth with
  | CoreRes.breach => TurnRes.breach
  | CoreRes.decked w c o => TurnRes.decked w (reassemble g i c o)
  | CoreRes.lifeLoss w c o => TurnRes.lifeLoss w (reassemble g i c o)
  | CoreRes.next c o =>
    let g1 := reassemble g i c o
    let newIdx := 1 - i
    TurnRes.next { g1 with currentPlayerIndex := newIdx,
                           numTurn := if newIdx = 0 then g.numTurn + 1 else g.numTurn }

/-- Result of iterating the turn loop with fuel: the fuel-exhaustion case
exists only in the embedding (the Rust loop has no fuel); the match itself
can only end by breach (panic), decking, or life loss. -/
inductive PlayRes where
  | breach : PlayRes
  | decked (w : Winner) : PlayRes
  | lifeLoss (w : Winner) : PlayRes
  | outOfFuel (g : GState) : PlayRes
deriving DecidableEq, Repr

def PlayRes.isFinished : PlayRes → Bool
  | PlayRes.outOfFuel _ => false
  | _ => true

/-- Fuelled iteration of the `loop` of `GameState::play`. -/
def playLoop (sA sB : Strategy) : Nat → GState → PlayRes
  | 0, g => PlayRes.outOfFuel g
  | n + 1, g =>
    match playTurn sA sB g with
    | TurnRes.breach => PlayRes.breach
    | TurnRes.decked w _ => PlayRes.decked w
    | TurnRes.lifeLoss w _ => PlayRes.lifeLoss w
    | TurnRes.next g1 => playLoop sA sB n g1

/-- Outcome of a match run, with the carried states stripped so that runs
differing only in the observer can be compared. -/
inductive Outcome where
  | breach : Outcome
  | decked (w : Winner) : Outcome
  | lifeLoss (w : Winner) : Outcome
  | unfinished : Outcome
deriving DecidableEq, Repr

def PlayRes.outcome : PlayRes → Outcome
  | PlayRes.breach => Outcome.breach
  | PlayRes.decked w => Outcome.decked w
  | PlayRes.lifeLoss w => Outcome.lifeLoss w
  | PlayRes.outOfFuel _ => Outcome.unfinished

def setPrintout (p : Printout) (g : GState) : GState :=
  { g with printout := p }

/-- Termination measure for the turn loop: total library size plus one for
the single turn on which the draw step is skipped (the starting player's
first turn, `num_turn = 1` with index 0). -/
def gmeasure (g : GState) : Nat :=
  g.playerStates.1.deck.length + g.playerStates.2.deck.length +
    (if g.numTurn = 1 ∧ g.currentPlayerIndex = 0 then 1 else 0)

/-- Single mutations a `PlayerState` undergoes during a match, as performed
by `do_muligans` and the turn loop of `GameState::play`: a draw; a shuffle
(any permutation of the library, standing for the injected RNG); the hand
sort; untapping; tapping declared attackers; bottoming one hand card during
a mulligan keep; returning the whole hand to the library on a mulligan;
the main-phase plays; a discard; combat deaths; and a combat life loss. -/
inductive Step : PState → PState → Prop
  | drawStep (s : PState) : Step s (draw s).2
  | shuffle (s : PState) (d : List Card) (h : d.Perm s.deck) : Step s { s with deck := d }
  | sort (s : PState) : Step s (sortHand s)
  | untapStep (s : PState) : Step s (untap s)
  | tap (s : PState) (as : List Nat) (cs : List Creature)
      (h : tapAttackers s.creatures as = some cs) : Step s { s with creatures := cs }
  | bottom (s : PState) (i : Nat) (c : Card) (h : s.hand.get? i = some c) :
      Step s { s with hand := s.hand.eraseIdx i, deck := c :: s.deck }
  | putBack (s : PState) : Step s { s with deck := s.deck ++ s.hand, hand := [] }
  | main (s : PState) (p : MainPhasePlays) (s1 : PState)
      (h : handle_main_phase_plays s p = some s1) : Step s s1
  | discardStep (s : PState) (idxs : List Nat) (s1 : PState)
      (h : handle_discard s idxs = some s1) : Step s s1
  | deaths (s : PState) (idxs : List Nat) (s1 : PState)
      (h : die s idxs = some s1) : Step s s1
  | damage (s : PState) (n : Nat) : Step s { s with life := s.life - (n : Int) }

/-- Reachable player states: a fresh state (60-card deck from
`Player::make_deck` with its `assert_eq!(deck.len(), 60)`, empty hand, no
lands, no creatures, 20 life) closed under the engine's mutations. -/
inductive Reachable : PState → Prop
  | init (d : List Card) (h : d.length = 60) :
      Reachable { deck := d, hand := [], numLands := 0, creatures := [], life := 20, removed := 0 }
  | step (s s1 : PState) (hr : Reachable s) (hs : Step s s1) : Reachable s1

/-- Card count as the claim words it: library, hand, battlefield creatures
and the discard/dead count — lands in play not included. -/
def claimCount (s : PState) : Nat :=
  s.deck.length + s.hand.length + s.creatures.length + s.removed

/-- Full card count: library, hand, battlefield creatures, lands in play,
and the discard/dead count. -/
def cardCount (s : PState) : Nat :=
  s.deck.length + s.hand.length + s.creatures.length + s.numLands + s.removed

def CoreRes.isNext : CoreRes → Bool
  | CoreRes.next _ _ => true
  | _ => false

/-- Strategy that never attacks, blocks, casts or mulligans: used to run
the engine on concrete states. -/
def passStrategy : Strategy :=
  { attack := fun _ => []
    block := fun _ _ => []
    orderBlockers := fun _ d => d
    mainPhase := fun _ => { land := false, cards := [] }
    discard := fun _ => []
    muliganChoice := fun _ _ _ => MuliganChoice.keepExcept [] }

/-- Attacking strategy for the blocking-validation scenario: declares only
creature 0 as attacker. -/
def stratC2cur : Strategy :=
  { passStrategy with attack := fun _ => [0] }

/-- Defending strategy for the blocking-validation scenario: blocks with
its creature 0 an "attacker" index 1 that was never declared. -/
def stratC2oth : Strategy :=
  { passStrategy with block := fun _ _ => [(0, 1)] }

/-- Attacking player's state for the blocking-validation scenario: two
untapped 1/1 creatures on the battlefield, one card left in the library. -/
def curC2 : PState :=
  { deck := [Card.land], hand := [], numLands := 0,
    creatures := [⟨0, 1, 1, false⟩, ⟨0, 1, 1, false⟩], life := 20, removed := 0 }

/-- Defending player's state for the blocking-validation scenario: one
untapped 2/2 creature. -/
def othC2 : PState :=
  { deck := [Card.land], hand := [], numLands := 0,
    creatures := [⟨1, 2, 2, false⟩], life := 20, removed := 0 }

/-- Fresh all-lands player state for the card-count scenario. -/
def c3s0 : PState :=
  { deck := List.replicate 60 Card.land, hand := [], numLands := 0,
    creatures := [], life := 20, removed := 0 }

/-- State after drawing once from `c3s0`. -/
def c3s1 : PState := (draw c3s0).2

/-- State after then playing the drawn land: 59 + 0 + 0 cards plus nothing
discarded or dead. -/
def c3s2 : PState :=
  { deck := List.replicate 59 Card.land, hand := [], numLands := 1,
    creatures := [], life := 20, removed := 0 }

/-- Empty-library player state (20 life, nothing anywhere). -/
def emptyP : PState :=
  { deck := [], hand := [], numLands := 0, creatures := [], life := 20, removed := 0 }

/-- Game state for the termination witness: both libraries empty, start of
turn 1 for player 1. -/
def g8 : GState :=
  { playerStates := (emptyP, emptyP), numTurn := 1, currentPlayerIndex := 0,
    printout := Printout.nothing }

/-- Hand for the main-phase witness: a Memnite and a land, the land last. -/
def s6w : PState :=
  { deck := [], hand := [Card.creature ⟨0, 1, 1⟩, Card.land], numLands := 0,
    creatures := [], life := 20, removed := 0 }

/-- Identity shuffle for mulligan witnesses. -/
def idShuffle : Nat → List Card → List Card := fun _ l => l

/-- Choice function that mulligans twice and then keeps five: bottoms hand
positions 0 and 1. -/
def choiceKeep2 : List Card → Nat → Bool → MuliganChoice :=
  fun _ m _ => if m < 2 then MuliganChoice.muligan else MuliganChoice.keepExcept [0, 1]

/-- Choice function that always mulligans. -/
def choiceAlwaysMul : List Card → Nat → Bool → MuliganChoice :=
  fun _ _ _ => MuliganChoice.muligan

/-- C10: a draw from an empty library returns `Empty` and changes nothing;
a draw from a non-empty library returns `Nonempty`, moves exactly the top
library card (the last element of the Vec) to the end of the hand, and
changes nothing else. -/
theorem c10_draw_spec (s : PState) :
    (s.deck = [] → draw s = (DrawResult.empty, s)) ∧
    (s.deck ≠ [] → ∃ deck1 card, s.deck = deck1 ++ [card] ∧
      draw s = (DrawResult.nonempty,
        { s with deck := deck1, hand := s.hand ++ [card] })) := by
  constructor
  · intro h
    simp [draw, h]
  · intro h
    obtain ⟨deck1, card, hd⟩ := (List.eq_nil_or_concat s.deck).resolve_left h
    have hd1 : s.deck = deck1 ++ [card] := by simpa using hd
    refine ⟨deck1, card, hd1, ?_⟩
    simp [draw, hd1]

/-- Witness for `c10_draw_spec` at an empty and at a 60-card library. -/
theorem c10_draw_spec_witness :
    draw emptyP = (DrawResult.empty, emptyP) ∧
    ∃ deck1 card, c3s0.deck = deck1 ++ [card] ∧
      draw c3s0 = (DrawResult.nonempty,
        { c3s0 with deck := deck1, hand := c3s0.hand ++ [card] }) :=
  ⟨(c10_draw_spec emptyP).1 rfl, (c10_draw_spec c3s0).2 (by simp [c3s0])⟩

/-- C5: whenever the draw step applies (not the starting player's first
turn) and the active player's library is empty, the turn ends immediately
with the opponent as winner by decking; no strategy is consulted and no
later phase of the turn runs — the only state change is the untap. -/
theorem c5_decking (sC sO : Strategy) (numTurn curIdx : Nat) (cur oth : PState)
    (hturn : ¬(numTurn = 1 ∧ curIdx = 0)) (hdeck : cur.deck = []) :
    playTurnCore sC sO numTurn curIdx cur oth =
      CoreRes.decked (if curIdx = 0 then Winner.player2 else Winner.player1) (untap cur) oth := by
  have huntap : (untap cur).deck = [] := by simp [untap, hdeck]
  simp [playTurnCore, if_neg hturn, draw, huntap]

/-- Witness for `c5_decking`: player 2 decks out on turn 2. -/
theorem c5_decking_witness :
    playTurnCore passStrategy passStrategy 2 1 emptyP emptyP =
      CoreRes.decked Winner.player1 (untap emptyP) emptyP :=
  c5_decking passStrategy passStrategy 2 1 emptyP emptyP (by simp) rfl

lemma tapAttackers_effect (creatures : List Creature) (as : List Nat) (cs1 : List Creature)
    (h : tapAttackers creatures as = some cs1) :
    ∀ j, cs1.get? j = (creatures.get? j).map
      (fun c => if j ∈ as then { c with tapped := true } else c) := by
  induction as generalizing creatures with
  | nil =>
    simp only [tapAttackers, Option.some.injEq] at h
    subst h
    intro j
    cases creatures.get? j <;> simp
  | cons a as ih =>
    intro j
    simp only [tapAttackers] at h
    cases hga : creatures.get? a with
    | none => rw [hga] at h; simp at h
    | some c =>
      rw [hga] at h
      by_cases hct : c.tapped
      · simp [hct] at h
      · simp only [hct, if_false, Bool.false_eq_true] at h
        have hlt : a < creatures.length := by
          rw [List.get?_eq_getElem?] at hga
          exact (List.getElem?_eq_some.mp hga).1
        have hj := ih _ h j
        rw [hj]
        rw [List.get?_eq_getElem?, List.get?_eq_getElem?, List.getElem?_set]
        by_cases hja : a = j
        · subst hja
          simp only [if_pos rfl, if_pos hlt]
          rw [List.get?_eq_getElem?] at hga
          rw [hga]
          by_cases hjas : a ∈ as <;> simp [hjas, List.mem_cons]
        · simp only [if_neg hja]
          have hne : ¬ j = a := fun hc => hja hc.symm
          cases creatures[j]? <;> simp [List.mem_cons, hne]

lemma tapAttackers_isSome (creatures : List Creature) (as : List Nat) :
    (tapAttackers creatures as).isSome = true ↔
      as.Nodup ∧ ∀ i ∈ as, ∃ c, creatures.get? i = some c ∧ c.tapped = false := by
  induction as generalizing creatures with
  | nil => simp [tapAttackers]
  | cons a as ih =>
    simp only [tapAttackers]
    cases hga : creatures.get? a with
    | none =>
      simp only [Option.isSome_none, Bool.false_eq_true, false_iff]
      rintro ⟨_, hall⟩
      obtain ⟨c, hc, _⟩ := hall a (List.mem_cons_self a as)
      rw [hga] at hc
      simp at hc
    | some c =>
      have hlt : a < creatures.length := by
        rw [List.get?_eq_getElem?] at hga
        exact (List.getElem?_eq_some.mp hga).1
      by_cases hct : c.tapped
      · simp only [hct, if_true, Option.isSome_none, Bool.false_eq_true, false_iff]
        rintro ⟨_, hall⟩
        obtain ⟨c1, hc1, ht1⟩ := hall a (List.mem_cons_self a as)
        rw [hga] at hc1
        cases hc1
        rw [hct] at ht1
        cases ht1
      · simp only [hct, if_false, Bool.false_eq_true, ih]
        constructor
        · rintro ⟨hnd, hall⟩
          have hanotin : a ∉ as := by
            intro hmem
            obtain ⟨c1, hc1, ht1⟩ := hall a hmem
            rw [List.get?_eq_getElem?, List.getElem?_set] at hc1
            simp only [eq_self_iff_true, hlt, if_true, Option.some.injEq] at hc1
            rw [← hc1] at ht1
            simp at ht1
          refine ⟨List.nodup_cons.mpr ⟨hanotin, hnd⟩, ?_⟩
          intro i hi
          rcases List.mem_cons.mp hi with hia | hias
          · exact ⟨c, by rw [hia]; exact hga, by simpa using hct⟩
          · obtain ⟨c1, hc1, ht1⟩ := hall i hias
            have hai : ¬ a = i := by
              intro hc
              subst hc
              exact absurd hias hanotin
            rw [List.get?_eq_getElem?, List.getElem?_set, if_neg hai,
              ← List.get?_eq_getElem?] at hc1
            exact ⟨c1, hc1, ht1⟩
        · rintro ⟨hnd, hall⟩
          have hanotin : a ∉ as := (List.nodup_cons.mp hnd).1
          refine ⟨(List.nodup_cons.mp hnd).2, ?_⟩
          intro i hi
          obtain ⟨c1, hc1, ht1⟩ := hall i (List.mem_cons_of_mem a hi)
          have hai : ¬ a = i := by
            intro hc
            subst hc
            exact absurd hi hanotin
          refine ⟨c1, ?_, ht1⟩
          rw [List.get?_eq_getElem?, List.getElem?_set, if_neg hai, ← List.get?_eq_getElem?]
          exact hc1

/-- C7: the engine taps every declared attacker; the attack declaration is
accepted (no panic) iff the declared indices are pairwise distinct and each
names an in-bounds, untapped creature — so declaring a tapped creature, or
the same creature twice, fails the `assert!` instead of silently mutating
state.  On success exactly the declared creatures are tapped and nothing
else changes. -/
theorem c7_attack_tapping (creatures : List Creature) (as : List Nat) :
    ((tapAttackers creatures as).isSome = true ↔
      as.Nodup ∧ ∀ i ∈ as, ∃ c, creatures.get? i = some c ∧ c.tapped = false) ∧
    (∀ cs1, tapAttackers creatures as = some cs1 →
      ∀ j, cs1.get? j = (creatures.get? j).map
        (fun c => if j ∈ as then { c with tapped := true } else c)) :=
  ⟨tapAttackers_isSome creatures as, fun cs1 h => tapAttackers_effect creatures as cs1 h⟩

/-- Witness for `c7_attack_tapping`: tapping the single declared attacker
of a one-creature battlefield. -/
theorem c7_attack_tapping_witness :
    ([⟨0, 1, 1, true⟩] : List Creature).get? 0 =
      (([⟨0, 1, 1, false⟩] : List Creature).get? 0).map
        (fun c => if 0 ∈ ([0] : List Nat) then { c with tapped := true } else c) :=
  (c7_attack_tapping [⟨0, 1, 1, false⟩] [0]).2 [⟨0, 1, 1, true⟩] rfl 0

lemma buildArrangement_isSome (curLen : Nat) (othC : List Creature) (pairs : List (Nat × Nat)) :
    ∀ (used : List Nat) (arr : List (Nat × List Nat)),
    (buildArrangement curLen othC used arr pairs).isSome = true ↔
      ((∀ pr ∈ pairs, pr.2 < curLen ∧ ∃ c, othC.get? pr.1 = some c ∧ c.tapped = false) ∧
       (pairs.map Prod.fst).Nodup ∧ ∀ pr ∈ pairs, ¬ pr.1 ∈ used) := by
  induction pairs with
  | nil => intro used arr; simp [buildArrangement]
  | cons pr rest ih =>
    intro used arr
    obtain ⟨blocker, attacker⟩ := pr
    simp only [buildArrangement]
    by_cases ha : attacker < curLen
    · simp only [if_pos ha]
      cases hgb : othC.get? blocker with
      | none =>
        simp only [Option.isSome_none, Bool.false_eq_true, false_iff]
        rintro ⟨hall, _, _⟩
        obtain ⟨_, c, hc, _⟩ := hall (blocker, attacker) (List.mem_cons_self _ _)
        rw [hgb] at hc
        simp at hc
      | some c =>
        by_cases hct : c.tapped
        · simp only [hct, if_true, Option.isSome_none, Bool.false_eq_true, false_iff]
          rintro ⟨hall, _, _⟩
          obtain ⟨_, c1, hc1, ht1⟩ := hall (blocker, attacker) (List.mem_cons_self _ _)
          rw [hgb] at hc1
          cases hc1
          rw [hct] at ht1
          cases ht1
        · simp only [hct, if_false, Bool.false_eq_true]
          by_cases hused : used.contains blocker
          · simp only [hused, if_true, Option.isSome_none, Bool.false_eq_true, false_iff]
            rintro ⟨_, _, hnotused⟩
            exact hnotused (blocker, attacker) (List.mem_cons_self _ _)
              (List.elem_iff.mp hused)
          · simp only [hused, if_false, Bool.false_eq_true, ih]
            constructor
            · rintro ⟨hall, hnd, hnu⟩
              refine ⟨?_, ?_, ?_⟩
              · intro q hq
                rcases List.mem_cons.mp hq with hq1 | hq2
                · subst hq1
                  exact ⟨ha, c, hgb, by simpa using hct⟩
                · exact hall q hq2
              · simp only [List.map_cons, List.nodup_cons]
                refine ⟨?_, hnd⟩
                intro hmem
                obtain ⟨q, hq, hqf⟩ := List.mem_map.mp hmem
                exact hnu q hq (by rw [hqf]; exact List.mem_cons_self _ _)
              · intro q hq hqu
                rcases List.mem_cons.mp hq with hq1 | hq2
                · subst hq1
                  exact hused (List.elem_iff.mpr (by simpa using hqu))
                · exact hnu q hq2 (List.mem_cons_of_mem _ hqu)
            · rintro ⟨hall, hnd, hnu⟩
              refine ⟨fun q hq => hall q (List.mem_cons_of_mem _ hq), ?_, ?_⟩
              · exact (List.nodup_cons.mp (by simpa using hnd)).2
              · intro q hq hqu
                rcases List.mem_cons.mp hqu with hq1 | hq2
                · have hbn : ¬ blocker ∈ List.map Prod.fst rest :=
                    (List.nodup_cons.mp (by simpa using hnd)).1
                  exact hbn (List.mem_map.mpr ⟨q, hq, hq1⟩)
                · exact hnu q (List.mem_cons_of_mem _ hq) hq2
    · simp only [if_neg ha, Option.isSome_none, Bool.false_eq_true, false_iff]
      rintro ⟨hall, _, _⟩
      exact ha (hall (blocker, attacker) (List.mem_cons_self _ _)).1

/-- C2 (amended): the engine's blocking validation accepts a set of
(blocker, attacker) pairs iff every blocker index names an in-bounds,
untapped defending creature, no blocker index is used twice, and every
attacker index is in bounds of the attacking player's creature list;
membership of the attacker index in the set of declared attackers is not
checked. -/
theorem c2_block_validation (curLen : Nat) (othC : List Creature) (pairs : List (Nat × Nat)) :
    (buildArrangement curLen othC [] [] pairs).isSome = true ↔
      (∀ pr ∈ pairs, pr.2 < curLen ∧ ∃ c, othC.get? pr.1 = some c ∧ c.tapped = false) ∧
      (pairs.map Prod.fst).Nodup := by
  rw [buildArrangement_isSome curLen othC pairs [] []]
  simp

/-- C2 counterexample: with two creatures on the attacking side, the
attacking strategy declares only creature 0, yet the defender's blocking
pair names attacker index 1 — an index that is not a member of the declared
attacker set.  The engine does not treat this as a contract breach: the
turn runs to completion (`isNext`), combat damage included, rather than
halting before damage. -/
theorem c2_counterexample :
    (playTurnCore stratC2cur stratC2oth 2 0 curC2 othC2).isNext = true ∧
    ((1 : Nat) ∈ ([0] : List Nat) → False) := by
  constructor
  · rfl
  · simp

lemma blockerDamageTotal_spec (othC : List Creature) (bs : List Nat) (bcs : List Creature)
    (hb : List.Forall₂ (fun b c => othC.get? b = some c) bs bcs) :
    blockerDamageTotal othC bs = some ((bcs.map Creature.pow).sum) := by
  induction hb with
  | nil => simp [blockerDamageTotal]
  | cons h t ih =>
    rw [List.get?_eq_getElem?] at h
    simp [blockerDamageTotal, h, ih]

lemma walkBlockers_spec (othC : List Creature) (bs : List Nat) (bcs : List Creature)
    (hb : List.Forall₂ (fun b c => othC.get? b = some c) bs bcs) :
    ∀ budget, ∃ k, walkBlockers othC budget bs = some (bs.take k) ∧
      ∀ i, i < bs.length → (i < k ↔ ((bcs.map Creature.tou).take (i + 1)).sum ≤ budget) := by
  induction hb with
  | nil => exact fun budget => ⟨0, by simp [walkBlockers], by simp⟩
  | @cons b c bs1 bcs1 h t ih =>
    intro budget
    have h9 : othC[b]? = some c := by rw [← List.get?_eq_getElem?]; exact h
    by_cases hbt : budget < c.tou
    · refine ⟨0, by simp [walkBlockers, h9, hbt], ?_⟩
      intro i _
      simp only [Nat.not_lt_zero, false_iff, List.map_cons]
      intro hsum
      rw [List.take_succ_cons, List.sum_cons] at hsum
      omega
    · obtain ⟨k, hw, hiff⟩ := ih (budget - c.tou)
      refine ⟨k + 1, by simp [walkBlockers, h9, hbt, hw], ?_⟩
      intro i hi
      cases i with
      | zero =>
        simp only [Nat.zero_lt_succ, true_iff, List.map_cons, List.take_succ_cons,
          List.take_zero, List.sum_cons, List.sum_nil]
        omega
      | succ j =>
        have hj := hiff j (by simpa using hi)
        simp only [List.map_cons, List.take_succ_cons, List.sum_cons]
        constructor
        · intro hlt
          have := hj.mp (by omega)
          omega
        · intro hle
          have : ((List.map Creature.tou bcs1).take (j + 1)).sum ≤ budget - c.tou := by omega
          have := hj.mpr this
          omega

/-- C1: combat resolution for a single attacking creature (power and
toughness from its battlefield entry, blockers given as the ordered index
list `bs`, whose creatures are `bcs`).  Unblocked: the defender loses
exactly the attacker's power and no creature dies.  Blocked: no life is
lost; the dead blockers form a prefix of the ordered blocker list, the
`i`-th blocker dying iff the cumulative toughness of blockers `0..i` fits
within the attacker's power (ties consume the budget exactly); the
attacker dies iff the blockers' total power meets or exceeds the
attacker's toughness. -/
theorem c1_combat_resolution (curC othC : List Creature) (a : Nat) (ac : Creature)
    (bs : List Nat) (bcs : List Creature) (ha : curC.get? a = some ac)
    (hb : List.Forall₂ (fun b c => othC.get? b = some c) bs bcs) :
    (bs = [] → resolveCombat curC othC [(a, bs)] = some (ac.pow, [], [])) ∧
    (bs ≠ [] → ∃ k,
      resolveCombat curC othC [(a, bs)] =
        some (0, (if ac.tou ≤ (bcs.map Creature.pow).sum then [a] else []), bs.take k) ∧
      ∀ i, i < bs.length → (i < k ↔ ((bcs.map Creature.tou).take (i + 1)).sum ≤ ac.pow)) := by
  have ha9 : curC[a]? = some ac := by rw [← List.get?_eq_getElem?]; exact ha
  constructor
  · intro h
    subst h
    simp [resolveCombat, ha9]
  · intro h
    obtain ⟨k, hw, hiff⟩ := walkBlockers_spec othC bs bcs hb ac.pow
    refine ⟨k, ?_, hiff⟩
    have ht := blockerDamageTotal_spec othC bs bcs hb
    have hne : bs.isEmpty = false := by
      cases bs with
      | nil => exact absurd rfl h
      | cons x xs => rfl
    simp [resolveCombat, ha9, hne, hw, ht]

/-- Witness for `c1_combat_resolution`: an unblocked 4-power attacker costs
the defender exactly 4 life; a 2-power attacker against two ordered 1/1
blockers kills both (budget consumed exactly) and dies to their combined
2 power against its toughness 2. -/
theorem c1_combat_resolution_witness :
    resolveCombat [⟨0, 4, 4, true⟩] [] [(0, [])] = some (4, [], []) ∧
    ∃ k, resolveCombat [⟨0, 2, 2, true⟩] [⟨0, 1, 1, false⟩, ⟨0, 1, 1, false⟩] [(0, [0, 1])] =
        some (0,
          (if (⟨0, 2, 2, true⟩ : Creature).tou ≤
              (([⟨0, 1, 1, false⟩, ⟨0, 1, 1, false⟩] : List Creature).map Creature.pow).sum
           then [0] else []),
          ([0, 1] : List Nat).take k) ∧
      ∀ i, i < ([0, 1] : List Nat).length →
        (i < k ↔ ((([⟨0, 1, 1, false⟩, ⟨0, 1, 1, false⟩] : List Creature).map
            Creature.tou).take (i + 1)).sum ≤ (⟨0, 2, 2, true⟩ : Creature).pow) :=
  ⟨(c1_combat_resolution [⟨0, 4, 4, true⟩] [] 0 ⟨0, 4, 4, true⟩ [] [] rfl List.Forall₂.nil).1 rfl,
   (c1_combat_resolution [⟨0, 2, 2, true⟩] [⟨0, 1, 1, false⟩, ⟨0, 1, 1, false⟩] 0 ⟨0, 2, 2, true⟩
      [0, 1] [⟨0, 1, 1, false⟩, ⟨0, 1, 1, false⟩] rfl
      (List.Forall₂.cons rfl (List.Forall₂.cons rfl List.Forall₂.nil))).2 (by simp)⟩

lemma Card.isLand_iff (c : Card) : Card.isLand c = true ↔ c = Card.land := by
  cases c <;> simp [Card.isLand]

lemma landPlay_land_cons (t : List Card) :
    landPlay (Card.land :: t) = if t.all Card.isLand then some t else none := by
  simp [landPlay, List.findIdx?_cons, Card.isLand]

lemma landPlay_cons_of_not_land (c : Card) (t : List Card) (h : Card.isLand c = false) :
    landPlay (c :: t) = (landPlay t).map (fun h1 => c :: h1) := by
  unfold landPlay
  rw [List.findIdx?_cons, h]
  simp only [Bool.false_eq_true, if_false]
  rw [List.findIdx?_succ]
  cases hf : t.findIdx? Card.isLand with
  | none => simp
  | some j =>
    simp only [Option.map_some']
    rw [List.drop_succ_cons, List.eraseIdx_cons_succ]
    by_cases hall : (t.drop j).all Card.isLand <;> simp [hall]

lemma landPlay_spec : ∀ (hand : List Card) (h1 : List Card), landPlay hand = some h1 →
    ∃ pre post, hand = pre ++ Card.land :: post ∧
      (∀ x ∈ pre, x ≠ Card.land) ∧ (∀ x ∈ post, x = Card.land) ∧ h1 = pre ++ post := by
  intro hand
  induction hand with
  | nil => intro h1 h; simp [landPlay] at h
  | cons c t ih =>
    intro h1 h
    by_cases hc : Card.isLand c
    · rw [(Card.isLand_iff c).mp hc] at h ⊢
      rw [landPlay_land_cons] at h
      by_cases hall : t.all Card.isLand
      · rw [if_pos hall, Option.some.injEq] at h
        subst h
        exact ⟨[], t, by simp, by simp, fun x hx =>
          (Card.isLand_iff x).mp (List.all_eq_true.mp hall x hx), by simp⟩
      · rw [if_neg hall] at h
        cases h
    · rw [landPlay_cons_of_not_land c t (by simpa using hc)] at h
      cases hlp : landPlay t with
      | none => rw [hlp] at h; cases h
      | some h0 =>
        rw [hlp, Option.map_some', Option.some.injEq] at h
        obtain ⟨pre, post, hdec, hpre, hpost, hh0⟩ := ih h0 hlp
        refine ⟨c :: pre, post, by simp [hdec], ?_, hpost, by simp [← h, hh0]⟩
        intro x hx
        rcases List.mem_cons.mp hx with hx1 | hx2
        · subst hx1
          intro hcl
          rw [hcl] at hc
          exact hc rfl
        · exact hpre x hx2

lemma landOk_cons_iff (c : Card) (t : List Card) (h : c ≠ Card.land) :
    LandOk (c :: t) ↔ LandOk t := by
  constructor
  · rintro ⟨pre, post, hdec, hpre, hpost⟩
    cases pre with
    | nil =>
      simp only [List.nil_append, List.cons.injEq] at hdec
      exact absurd hdec.1 h
    | cons c1 pre1 =>
      simp only [List.cons_append, List.cons.injEq] at hdec
      exact ⟨pre1, post, hdec.2, fun x hx => hpre x (List.mem_cons_of_mem _ hx), hpost⟩
  · rintro ⟨pre, post, hdec, hpre, hpost⟩
    refine ⟨c :: pre, post, by simp [hdec], ?_, hpost⟩
    intro x hx
    rcases List.mem_cons.mp hx with hx1 | hx2
    · subst hx1; exact h
    · exact hpre x hx2

lemma landPlay_isSome : ∀ hand : List Card, (landPlay hand).isSome = true ↔ LandOk hand := by
  intro hand
  induction hand with
  | nil =>
    simp only [landPlay, List.findIdx?_nil, Option.isSome_none, Bool.false_eq_true, false_iff]
    rintro ⟨pre, post, hdec, _, _⟩
    exact List.not_mem_nil Card.land (hdec ▸ List.mem_append_right pre (List.mem_cons_self _ _))
  | cons c t ih =>
    by_cases hc : Card.isLand c
    · rw [(Card.isLand_iff c).mp hc]
      rw [landPlay_land_cons]
      constructor
      · intro hs
        by_cases hall : t.all Card.isLand
        · exact ⟨[], t, by simp, by simp, fun x hx =>
            (Card.isLand_iff x).mp (List.all_eq_true.mp hall x hx)⟩
        · rw [if_neg hall] at hs
          simp at hs
      · rintro ⟨pre, post, hdec, hpre, hpost⟩
        have hall : t.all Card.isLand := by
          cases pre with
          | nil =>
            simp only [List.nil_append, List.cons.injEq] at hdec
            rw [hdec.2]
            exact List.all_eq_true.mpr fun x hx =>
              (Card.isLand_iff x).mpr (hpost x hx)
          | cons c1 pre1 =>
            simp only [List.cons_append, List.cons.injEq] at hdec
            exact absurd hdec.1.symm (hpre c1 (List.mem_cons_self _ _))
        simp [hall]
    · rw [landPlay_cons_of_not_land c t (by simpa using hc)]
      rw [landOk_cons_iff c t (fun hcl => hc (by rw [hcl]; rfl))]
      rw [← ih]
      cases landPlay t <;> simp

lemma computeTotalCmc_isSome (hand : List Card) :
    ∀ cards : List Nat, (computeTotalCmc hand cards).isSome = true ↔
      ∀ i ∈ cards, ∃ cc, hand.get? i = some (Card.creature cc) := by
  intro cards
  induction cards with
  | nil => simp [computeTotalCmc]
  | cons i is ih =>
    simp only [computeTotalCmc]
    cases hgi : hand.get? i with
    | none =>
      simp only [Option.isSome_none, Bool.false_eq_true, false_iff]
      intro hall
      obtain ⟨cc, hcc⟩ := hall i (List.mem_cons_self _ _)
      rw [hgi] at hcc
      cases hcc
    | some cd =>
      cases cd with
      | land =>
        simp only [Option.isSome_none, Bool.false_eq_true, false_iff]
        intro hall
        obtain ⟨cc, hcc⟩ := hall i (List.mem_cons_self _ _)
        rw [hgi] at hcc
        cases hcc
      | creature cc =>
        constructor
        · intro hs
          intro j hj
          rcases List.mem_cons.mp hj with hj1 | hj2
          · exact ⟨cc, by rw [hj1]; exact hgi⟩
          · cases hrest : computeTotalCmc hand is with
            | none => rw [hrest] at hs; simp at hs
            | some n => exact (ih.mp (by rw [hrest]; rfl)) j hj2
        · intro hall
          have hs := ih.mpr fun j hj => hall j (List.mem_cons_of_mem _ hj)
          cases hrest : computeTotalCmc hand is with
          | none => rw [hrest] at hs; simp at hs
          | some n => rfl

lemma computeTotalCmc_eq (hand : List Card) :
    ∀ (cards : List Nat) (n : Nat), computeTotalCmc hand cards = some n →
      n = cmcSumOf hand cards := by
  intro cards
  induction cards with
  | nil =>
    intro n h
    simp only [computeTotalCmc, Option.some.injEq] at h
    simp [cmcSumOf, ← h]
  | cons i is ih =>
    intro n h
    simp only [computeTotalCmc] at h
    cases hgi : hand.get? i with
    | none => rw [hgi] at h; cases h
    | some cd =>
      rw [hgi] at h
      cases cd with
      | land => cases h
      | creature cc =>
        cases hrest : computeTotalCmc hand is with
        | none => rw [hrest] at h; cases h
        | some m =>
          rw [hrest] at h
          have h2 : some (cc.cmc + m) = some n := h
          have h3 : cc.cmc + m = n := by
            injection h2
          rw [← h3, cmcSumOf, List.map_cons, List.sum_cons, hgi]
          have := ih m hrest
          rw [cmcSumOf] at this
          rw [← this]

lemma pushCreatures_length (hand : List Card) :
    ∀ (cards : List Nat) (acc out : List Creature),
      pushCreatures hand acc cards = some out → out.length = acc.length + cards.length := by
  intro cards
  induction cards with
  | nil =>
    intro acc out h
    simp only [pushCreatures, Option.some.injEq] at h
    simp [← h]
  | cons i is ih =>
    intro acc out h
    simp only [pushCreatures] at h
    cases hgi : hand.get? i with
    | none => rw [hgi] at h; cases h
    | some cd =>
      rw [hgi] at h
      cases cd with
      | land => cases h
      | creature cc =>
        have := ih (acc ++ [Creature.new cc]) out h
        simp only [List.length_append, List.length_cons, List.length_nil] at this
        simp [this, List.length_cons]
        omega

lemma pushCreatures_spec (hand : List Card) :
    ∀ (cards : List Nat) (acc : List Creature),
      (∀ i ∈ cards, ∃ cc, hand.get? i = some (Card.creature cc)) →
      ∃ ccs, List.Forall₂ (fun i cc => hand.get? i = some (Card.creature cc)) cards ccs ∧
        pushCreatures hand acc cards = some (acc ++ ccs.map Creature.new) := by
  intro cards
  induction cards with
  | nil => intro acc _; exact ⟨[], List.Forall₂.nil, by simp [pushCreatures]⟩
  | cons i is ih =>
    intro acc hok
    obtain ⟨cc, hcc⟩ := hok i (List.mem_cons_self _ _)
    obtain ⟨ccs, hf, hp⟩ := ih (acc ++ [Creature.new cc])
      (fun j hj => hok j (List.mem_cons_of_mem _ hj))
    refine ⟨cc :: ccs, List.Forall₂.cons hcc hf, ?_⟩
    have hstep : pushCreatures hand acc (i :: is) =
        pushCreatures hand (acc ++ [Creature.new cc]) is := by
      simp only [pushCreatures]
      rw [hcc]
    rw [hstep, hp]
    simp

lemma retainLoop_length (p : Nat → Bool) (l : List α) :
    ∀ n, (retainLoop p n l).length = ((List.range' n l.length).filter p).length := by
  induction l with
  | nil => intro n; simp [retainLoop]
  | cons a as ih =>
    intro n
    simp only [retainLoop, List.length_cons, List.range'_succ, List.filter_cons]
    by_cases hp : p n
    · simp [hp, ih]
    · simp [hp, ih]

lemma length_filter_split (p : α → Bool) (l : List α) :
    (l.filter p).length + (l.filter (fun a => !(p a))).length = l.length := by
  induction l with
  | nil => simp
  | cons a as ih =>
    simp only [List.filter_cons]
    by_cases hp : p a
    · simp only [hp, Bool.not_true, if_true, Bool.false_eq_true, if_false, List.length_cons]
      omega
    · simp only [hp, Bool.not_false, if_false, List.length_cons]
      simp only [Bool.false_eq_true, if_false]  -- normalize remaining ifs if any
      rw [if_pos]
      · simp only [List.length_cons]
        omega
      · simp [hp]

lemma filter_range_contains_length (idxs : List Nat) (L : Nat) (hnd : idxs.Nodup)
    (hb : ∀ i ∈ idxs, i < L) :
    ((List.range L).filter (fun i => idxs.contains i)).length = idxs.length := by
  have hperm : ((List.range L).filter (fun i => idxs.contains i)).Perm idxs := by
    rw [List.perm_iff_count]
    intro j
    by_cases hj : j ∈ idxs
    · have hcnt : List.count j (List.filter (fun i => idxs.contains i) (List.range L)) =
          List.count j (List.range L) :=
        List.count_filter (by simpa using List.elem_iff.mpr hj)
      rw [hcnt, List.count_eq_one_of_mem (List.nodup_range L) (List.mem_range.mpr (hb j hj)),
        List.count_eq_one_of_mem hnd hj]
    · rw [List.count_eq_zero_of_not_mem hj, List.count_eq_zero_of_not_mem]
      intro hmem
      exact hj (by simpa using (List.mem_filter.mp hmem).2)
  exact hperm.length_eq

lemma removeIndices_length (l : List α) (idxs : List Nat) (hnd : idxs.Nodup)
    (hb : ∀ i ∈ idxs, i < l.length) :
    (removeIndices l idxs).length + idxs.length = l.length := by
  rw [removeIndices, retainLoop_length, ← List.range_eq_range']
  have hsplit : ((List.range l.length).filter (fun i => idxs.contains i)).length +
      ((List.range l.length).filter (fun i => !(idxs.contains i))).length = l.length := by
    simpa using length_filter_split (fun i => idxs.contains i) (List.range l.length)
  have hmem := filter_range_contains_length idxs l.length hnd hb
  omega

lemma landBranch_inv (s : PState) (land : Bool) (s1 : PState)
    (h : landBranch s land = some s1) :
    s1.deck = s.deck ∧ s1.creatures = s.creatures ∧ s1.life = s.life ∧
    s1.removed = s.removed ∧
    s1.numLands = s.numLands + (if land then 1 else 0) ∧
    s1.hand.length + (if land then 1 else 0) = s.hand.length := by
  cases land with
  | false =>
    simp only [landBranch, Bool.false_eq_true, if_false, Option.some.injEq] at h
    subst h
    simp
  | true =>
    simp only [landBranch, if_true] at h
    cases hlp : landPlay s.hand with
    | none => rw [hlp] at h; cases h
    | some newHand =>
      rw [hlp, Option.some.injEq] at h
      subst h
      obtain ⟨pre, post, hdec, _, _, hnh⟩ := landPlay_spec s.hand newHand hlp
      refine ⟨rfl, rfl, rfl, rfl, by simp, ?_⟩
      simp only [if_true]
      rw [hnh, hdec]
      simp [List.length_append]
      omega

lemma main_phase_inv (s : PState) (p : MainPhasePlays) (s2 : PState)
    (h : handle_main_phase_plays s p = some s2) :
    ∃ s1 creatures1,
      landBranch s p.land = some s1 ∧
      (∀ i ∈ p.cards, ∃ cc, s1.hand.get? i = some (Card.creature cc)) ∧
      cmcSumOf s1.hand p.cards ≤ s1.numLands ∧
      pushCreatures s1.hand s1.creatures p.cards = some creatures1 ∧
      s1.hand.length = (removeIndices s1.hand p.cards).length + p.cards.length ∧
      s2 = { s1 with creatures := creatures1, hand := removeIndices s1.hand p.cards } := by
  cases hlb : landBranch s p.land with
  | none => simp [handle_main_phase_plays, hlb] at h
  | some s1 =>
    cases hcmc : computeTotalCmc s1.hand p.cards with
    | none => simp [handle_main_phase_plays, hlb, hcmc] at h
    | some total =>
      by_cases hle : total ≤ s1.numLands
      · cases hpush : pushCreatures s1.hand s1.creatures p.cards with
        | none => simp [handle_main_phase_plays, hlb, hcmc, hle, hpush] at h
        | some creatures1 =>
          by_cases hlen :
              s1.hand.length = (removeIndices s1.hand p.cards).length + p.cards.length
          · simp only [handle_main_phase_plays, hlb, hcmc, if_pos hle, hpush, if_pos hlen,
              Option.some.injEq] at h
            refine ⟨s1, creatures1, rfl, ?_, ?_, hpush, hlen, h.symm⟩
            · exact (computeTotalCmc_isSome s1.hand p.cards).mp (by rw [hcmc]; rfl)
            · rw [← computeTotalCmc_eq s1.hand p.cards total hcmc]
              exact hle
          · simp [handle_main_phase_plays, hlb, hcmc, hle, hpush, hlen] at h
      · simp [handle_main_phase_plays, hlb, hcmc, hle] at h

/-- C6: validation and effect of the main-phase plays, for a set of
(pairwise distinct, as the spec's "ordered set") creature indices.  The
request succeeds iff the land part succeeds (for `play_land`, iff some
land is in hand with nothing but lands after it; otherwise trivially) and,
on the hand left after the land is consumed, every named index refers to a
creature card whose summed costs fit within `lands_in_play` (already
incremented by the land just played).  On success, the named cards are
removed from the hand and a corresponding untapped creature is appended to
the battlefield for each named index, in the given order; `lands_in_play`
grows by one iff a land was played, and library, life and the rest are
untouched.  Any violation yields `none` (the Rust panic). -/
theorem c6_main_phase (s : PState) (p : MainPhasePlays) (hnd : p.cards.Nodup) :
    ((handle_main_phase_plays s p).isSome = true ↔
      ∃ s1, landBranch s p.land = some s1 ∧
        (∀ i ∈ p.cards, ∃ cc, s1.hand.get? i = some (Card.creature cc)) ∧
        cmcSumOf s1.hand p.cards ≤ s1.numLands) ∧
    (p.land = true → ((landBranch s p.land).isSome = true ↔ LandOk s.hand)) ∧
    (p.land = false → landBranch s p.land = some s) ∧
    (∀ s2, handle_main_phase_plays s p = some s2 →
      ∃ s1 ccs, landBranch s p.land = some s1 ∧
        s1.deck = s.deck ∧ s1.creatures = s.creatures ∧ s1.life = s.life ∧
        s1.numLands = s.numLands + (if p.land then 1 else 0) ∧
        List.Forall₂ (fun i cc => s1.hand.get? i = some (Card.creature cc)) p.cards ccs ∧
        s2 = { s1 with hand := removeIndices s1.hand p.cards,
                       creatures := s.creatures ++ ccs.map Creature.new } ∧
        (∀ c ∈ ccs.map Creature.new, c.tapped = false)) := by
  refine ⟨⟨?_, ?_⟩, ?_, ?_, ?_⟩
  · intro hs
    obtain ⟨s2, hs2⟩ := Option.isSome_iff_exists.mp hs
    obtain ⟨s1, creatures1, hlb, hok, hle, _, _, _⟩ := main_phase_inv s p s2 hs2
    exact ⟨s1, hlb, hok, hle⟩
  · rintro ⟨s1, hlb, hok, hle⟩
    have hbounds : ∀ i ∈ p.cards, i < s1.hand.length := by
      intro i hi
      obtain ⟨cc, hcc⟩ := hok i hi
      rw [List.get?_eq_getElem?] at hcc
      exact (List.getElem?_eq_some.mp hcc).1
    have hguard : s1.hand.length = (removeIndices s1.hand p.cards).length + p.cards.length := by
      have := removeIndices_length s1.hand p.cards hnd hbounds
      omega
    have hcm : computeTotalCmc s1.hand p.cards = some (cmcSumOf s1.hand p.cards) := by
      have hsome := (computeTotalCmc_isSome s1.hand p.cards).mpr hok
      obtain ⟨t, ht⟩ := Option.isSome_iff_exists.mp hsome
      rw [ht, computeTotalCmc_eq s1.hand p.cards t ht]
    obtain ⟨ccs, _, hpush⟩ := pushCreatures_spec s1.hand p.cards s1.creatures hok
    simp only [handle_main_phase_plays, hlb, hcm, if_pos hle, hpush, if_pos hguard,
      Option.isSome_some]
  · intro hland
    rw [hland]
    simp only [landBranch, if_true]
    cases hlp : landPlay s.hand with
    | none =>
      have := landPlay_isSome s.hand
      rw [hlp] at this
      simpa using this
    | some newHand =>
      have := landPlay_isSome s.hand
      rw [hlp] at this
      simpa using this
  · intro hland
    rw [hland]
    simp [landBranch]
  · intro s2 hs2
    obtain ⟨s1, creatures1, hlb, hok, hle, hpush, hlen, hs2eq⟩ := main_phase_inv s p s2 hs2
    obtain ⟨hdeck, hcre, hlife, _, hlands, _⟩ := landBranch_inv s p.land s1 hlb
    obtain ⟨ccs, hf, hpush2⟩ := pushCreatures_spec s1.hand p.cards s1.creatures hok
    rw [hpush] at hpush2
    injection hpush2 with hcr1
    refine ⟨s1, ccs, hlb, hdeck, hcre, hlife, hlands, hf, ?_, ?_⟩
    · rw [hs2eq, hcr1, hcre]
    · intro c hc
      obtain ⟨cc, _, hceq⟩ := List.mem_map.mp hc
      rw [← hceq]
      rfl

/-- Witness for `c6_main_phase`: playing the land and casting the Memnite
from a two-card hand. -/
theorem c6_main_phase_witness :
    ∃ s1, landBranch s6w ({ land := true, cards := [0] } : MainPhasePlays).land = some s1 ∧
      (∀ i ∈ ({ land := true, cards := [0] } : MainPhasePlays).cards,
        ∃ cc, s1.hand.get? i = some (Card.creature cc)) ∧
      cmcSumOf s1.hand ({ land := true, cards := [0] } : MainPhasePlays).cards ≤ s1.numLands :=
  (c6_main_phase s6w { land := true, cards := [0] } (by simp)).1.mp (by rfl)

lemma draw_cardCount (s : PState) : cardCount (draw s).2 = cardCount s := by
  rcases heq : s.deck.getLast? with _ | card
  · simp [draw, heq]
  · have hne : s.deck ≠ [] := by
      intro hc
      rw [hc] at heq
      cases heq
    obtain ⟨d1, c1, hd⟩ := (List.eq_nil_or_concat s.deck).resolve_left hne
    have hd1 : s.deck = d1 ++ [c1] := by simpa using hd
    simp [draw, heq, cardCount, hd1]
    omega

lemma sortHand_hand_length (s : PState) : (sortHand s).hand.length = s.hand.length := by
  simp only [sortHand, List.length_append]
  have := length_filter_split Card.isLand s.hand
  omega

lemma tapAttackers_length (creatures : List Creature) :
    ∀ (as : List Nat) (cs1 : List Creature),
      tapAttackers creatures as = some cs1 → cs1.length = creatures.length := by
  intro as
  induction as generalizing creatures with
  | nil =>
    intro cs1 h
    simp only [tapAttackers, Option.some.injEq] at h
    rw [← h]
  | cons a as ih =>
    intro cs1 h
    simp only [tapAttackers] at h
    cases hga : creatures.get? a with
    | none => rw [hga] at h; cases h
    | some c =>
      rw [hga] at h
      by_cases hct : c.tapped
      · simp [hct] at h
      · simp only [hct, if_false, Bool.false_eq_true] at h
        rw [ih _ _ h, List.length_set]

lemma retainLoop_length_le (p : Nat → Bool) (l : List α) :
    ∀ n, (retainLoop p n l).length ≤ l.length := by
  induction l with
  | nil => intro n; simp [retainLoop]
  | cons a as ih =>
    intro n
    simp only [retainLoop]
    by_cases hp : p n
    · simp only [hp, if_true, List.length_cons]
      exact Nat.succ_le_succ (ih (n + 1))
    · simp only [hp, Bool.false_eq_true, if_false, List.length_cons]
      exact Nat.le_succ_of_le (ih (n + 1))

lemma handle_discard_spec (s : PState) (idxs : List Nat) (s1 : PState)
    (h : handle_discard s idxs = some s1) :
    s1.deck = s.deck ∧ s1.creatures = s.creatures ∧ s1.life = s.life ∧
    s1.numLands = s.numLands ∧ s1.hand.length = 7 ∧
    s1.removed = s.removed + idxs.length ∧ s.hand.length = 7 + idxs.length := by
  simp only [handle_discard] at h
  by_cases h1 : idxs.length = s.hand.length - 7
  · rw [if_pos h1] at h
    by_cases h2 : (removeIndices s.hand idxs).length = 7
    · rw [if_pos h2, Option.some.injEq] at h
      subst h
      have hle : (removeIndices s.hand idxs).length ≤ s.hand.length :=
        retainLoop_length_le _ s.hand 0
      refine ⟨rfl, rfl, rfl, rfl, h2, rfl, ?_⟩
      omega
    · rw [if_neg h2] at h; cases h
  · rw [if_neg h1] at h; cases h

lemma die_spec (s : PState) (idxs : List Nat) (s1 : PState)
    (h : die s idxs = some s1) :
    s1.deck = s.deck ∧ s1.hand = s.hand ∧ s1.life = s.life ∧
    s1.numLands = s.numLands ∧
    s1.creatures.length + idxs.length = s.creatures.length ∧
    s1.removed = s.removed + idxs.length := by
  simp only [die] at h
  by_cases h1 : s.creatures.length = (removeIndices s.creatures idxs).length + idxs.length
  · rw [if_pos h1, Option.some.injEq] at h
    subst h
    exact ⟨rfl, rfl, rfl, rfl, h1.symm, rfl⟩
  · rw [if_neg h1] at h; cases h

lemma main_phase_cardCount (s : PState) (p : MainPhasePlays) (s2 : PState)
    (h : handle_main_phase_plays s p = some s2) :
    cardCount s2 = cardCount s ∧ s2.deck = s.deck ∧ s2.removed = s.removed ∧
    s2.life = s.life := by
  obtain ⟨s1, creatures1, hlb, _, _, hpush, hlen, hs2⟩ := main_phase_inv s p s2 h
  obtain ⟨hdeck, hcre, hlife, hrem, hlands, hhand⟩ := landBranch_inv s p.land s1 hlb
  have hclen := pushCreatures_length s1.hand p.cards s1.creatures creatures1 hpush
  subst hs2
  refine ⟨?_, hdeck, hrem, hlife⟩
  simp only [cardCount, hdeck, hrem, hlands, hclen, hcre]
  have hh : (removeIndices s1.hand p.cards).length + p.cards.length = s1.hand.length :=
    hlen.symm
  by_cases hl : p.land
  · simp only [hl, if_true] at hlands hhand ⊢
    omega
  · simp only [hl, Bool.false_eq_true, if_false] at hlands hhand ⊢
    omega

lemma step_cardCount (s s1 : PState) (h : Step s s1) : cardCount s1 = cardCount s := by
  cases h with
  | drawStep => exact draw_cardCount s
  | shuffle d hp => simp [cardCount, List.Perm.length_eq hp]
  | sort =>
    have := sortHand_hand_length s
    simp only [cardCount, sortHand] at this ⊢
    omega
  | untapStep => simp [cardCount, untap]
  | tap as cs hts => simp [cardCount, tapAttackers_length s.creatures as cs hts]
  | bottom i c hg =>
    have hlt : i < s.hand.length := by
      rw [List.get?_eq_getElem?] at hg
      exact (List.getElem?_eq_some.mp hg).1
    simp only [cardCount, List.length_cons, List.length_eraseIdx, if_pos hlt]
    omega
  | putBack => simp [cardCount]
  | main p s2 hm => exact (main_phase_cardCount s p s1 hm).1
  | discardStep idxs s2 hd =>
    obtain ⟨hdeck, hcre, _, hlands, hh7, hrem, hlen⟩ := handle_discard_spec s idxs s1 hd
    simp only [cardCount, hdeck, hcre, hlands, hh7, hrem]
    omega
  | deaths idxs s2 hd =>
    obtain ⟨hdeck, hhand, _, hlands, hclen, hrem⟩ := die_spec s idxs s1 hd
    simp only [cardCount, hdeck, hhand, hlands, hrem]
    omega
  | damage n => simp [cardCount]

/-- C3 (amended): for every reachable player state, library plus hand plus
battlefield creatures plus lands in play plus the discard/dead count equals
60.  (The claim's own formula, which omits lands in play, fails — see the
counterexample.) -/
theorem c3_card_conservation (s : PState) (h : Reachable s) : cardCount s = 60 := by
  induction h with
  | init d hd => simp [cardCount, hd]
  | step s s1 hr hs ih => rw [step_cardCount s s1 hs, ih]

/-- Witness for `c3_card_conservation` at a fresh all-lands state. -/
theorem c3_card_conservation_witness : cardCount c3s0 = 60 :=
  c3_card_conservation c3s0 (Reachable.init (List.replicate 60 Card.land) (by simp))

/-- C3 counterexample: after drawing a land and playing it, the reachable
state `c3s2` has `library + hand + creatures + discard/dead = 59`, not 60
— the claim's count (in both phrasings, neither of which includes
`lands_in_play`) is violated as soon as a land is played. -/
theorem c3_counterexample :
    Reachable c3s2 ∧
    c3s2.deck.length + c3s2.hand.length + c3s2.creatures.length + c3s2.removed = 59 := by
  constructor
  · have h0 : Reachable c3s0 := Reachable.init (List.replicate 60 Card.land) (by simp)
    have h1 : Reachable c3s1 := Reachable.step c3s0 c3s1 h0 (Step.drawStep c3s0)
    have h2 : handle_main_phase_plays c3s1 { land := true, cards := [] } = some c3s2 := by
      rfl
    exact Reachable.step c3s1 c3s2 h1
      (Step.main c3s1 { land := true, cards := [] } c3s2 h2)
  · rfl

lemma perm_cons_eraseIdx (l : List α) (i : Nat) (c : α) (h : l.get? i = some c) :
    (c :: l.eraseIdx i).Perm l := by
  obtain ⟨hlt, hget⟩ := List.get?_eq_some.mp h
  rw [List.eraseIdx_eq_take_drop_succ]
  have h1 : (c :: (List.take i l ++ List.drop (i + 1) l)).Perm
      (List.take i l ++ c :: List.drop (i + 1) l) := List.perm_middle.symm
  have h2 : List.take i l ++ c :: List.drop (i + 1) l = l := by
    rw [← hget, List.get_eq_getElem, List.get_drop_eq_drop l i hlt, List.take_append_drop]
  rw [h2] at h1
  exact h1

lemma drawN_spec : ∀ (n : Nat) (s : PState), n ≤ s.deck.length →
    ∃ s1, drawN n s = some s1 ∧ s1.deck.length + n = s.deck.length ∧
      s1.hand.length = s.hand.length + n ∧
      (s1.hand ++ s1.deck).Perm (s.hand ++ s.deck) ∧
      s1.numLands = s.numLands ∧ s1.creatures = s.creatures ∧
      s1.life = s.life ∧ s1.removed = s.removed := by
  intro n
  induction n with
  | zero => intro s _; exact ⟨s, by simp [drawN], by simp, by simp, List.Perm.refl _,
      rfl, rfl, rfl, rfl⟩
  | succ m ih =>
    intro s hle
    have hne : s.deck ≠ [] := by
      intro hc
      rw [hc] at hle
      simp at hle
    obtain ⟨d1, c1, hd0⟩ := (List.eq_nil_or_concat s.deck).resolve_left hne
    have hd : s.deck = d1 ++ [c1] := by simpa using hd0
    have hdr : draw s = (DrawResult.nonempty,
        { s with deck := d1, hand := s.hand ++ [c1] }) := by
      simp [draw, hd]
    have hlen1 : d1.length + 1 = s.deck.length := by simp [hd]
    obtain ⟨s1, hs1, hdl, hhl, hperm, hl1, hc1, hlf, hrm⟩ :=
      ih { s with deck := d1, hand := s.hand ++ [c1] } (by simp at hlen1 ⊢; omega)
    refine ⟨s1, ?_, by simp at hdl ⊢; omega, by simp at hhl ⊢; omega, ?_, hl1, hc1, hlf, hrm⟩
    · simp only [drawN, hdr]
      exact hs1
    · refine hperm.trans ?_
      have hstep : ((s.hand ++ [c1]) ++ d1).Perm (s.hand ++ s.deck) := by
        rw [hd, List.append_assoc]
        exact List.Perm.append_left s.hand List.perm_append_comm
      exact hstep

lemma filter_lt_succ_length (l : List Nat) (hnd : l.Nodup) (n : Nat) :
    (l.filter (fun j => j < n + 1)).length =
      (l.filter (fun j => j < n)).length + (if n ∈ l then 1 else 0) := by
  induction l with
  | nil => simp
  | cons a t ih =>
    have hat : a ∉ t := (List.nodup_cons.mp hnd).1
    have iht := ih (List.nodup_cons.mp hnd).2
    rw [List.filter_cons, List.filter_cons]
    by_cases h1 : a < n
    · have e1 : (if n ∈ a :: t then 1 else 0) = (if n ∈ t then 1 else 0) := by
        by_cases hnt : n ∈ t
        · rw [if_pos (List.mem_cons.mpr (Or.inr hnt)), if_pos hnt]
        · rw [if_neg ?_, if_neg hnt]
          intro hc
          rcases List.mem_cons.mp hc with h | h
          · omega
          · exact hnt h
      rw [if_pos (show decide (a < n + 1) = true by simp only [decide_eq_true_eq]; omega),
        if_pos (show decide (a < n) = true by simp only [decide_eq_true_eq]; omega),
        List.length_cons, List.length_cons, iht, e1]
      omega
    · by_cases h2 : a = n
      · subst h2
        rw [if_pos (show decide (a < a + 1) = true by simp only [decide_eq_true_eq]; omega),
          if_neg (show ¬ decide (a < a) = true by simp),
          if_pos (List.mem_cons_self a t), List.length_cons, iht, if_neg hat]
      · have e1 : (if n ∈ a :: t then 1 else 0) = (if n ∈ t then 1 else 0) := by
          by_cases hnt : n ∈ t
          · rw [if_pos (List.mem_cons.mpr (Or.inr hnt)), if_pos hnt]
          · rw [if_neg ?_, if_neg hnt]
            intro hc
            rcases List.mem_cons.mp hc with h | h
            · exact h2 h.symm
            · exact hnt h
        rw [if_neg (show ¬ decide (a < n + 1) = true by
              simp only [decide_eq_true_eq]; omega),
          if_neg (show ¬ decide (a < n) = true by simp only [decide_eq_true_eq]; omega),
          e1, iht]

lemma bottomLoop_spec (remove : List Nat) (hnd : remove.Nodup) :
    ∀ (n : Nat) (s : PState), n ≤ s.hand.length →
      (bottomLoop remove n s).hand.length + (remove.filter (fun j => j < n)).length =
          s.hand.length ∧
      ((bottomLoop remove n s).hand ++ (bottomLoop remove n s).deck).Perm
          (s.hand ++ s.deck) ∧
      (bottomLoop remove n s).numLands = s.numLands ∧
      (bottomLoop remove n s).creatures = s.creatures ∧
      (bottomLoop remove n s).life = s.life ∧
      (bottomLoop remove n s).removed = s.removed := by
  intro n
  induction n with
  | zero =>
    intro s _
    have hf : remove.filter (fun j => j < 0) = [] := by
      rw [List.filter_eq_nil_iff]
      intro a _
      simp
    simp [bottomLoop, hf]
  | succ m ih =>
    intro s hle
    simp only [bottomLoop]
    by_cases hm : remove.contains m
    · have hmem : m ∈ remove := List.elem_iff.mp hm
      have hmlt : m < s.hand.length := by omega
      have hc : s.hand.get? m = some (s.hand.get ⟨m, hmlt⟩) := List.get?_eq_get hmlt
      set c := s.hand.get ⟨m, hmlt⟩ with hcdef
      have hc9 : s.hand[m]? = some c := by rw [← List.get?_eq_getElem?]; exact hc
      have hbi : bottomIdx s m =
          { s with hand := s.hand.eraseIdx m, deck := c :: s.deck } := by
        simp [bottomIdx, hc9]
      rw [if_pos hm, hbi]
      have hlen1 : (s.hand.eraseIdx m).length = s.hand.length - 1 := by
        rw [List.length_eraseIdx, if_pos hmlt]
      obtain ⟨ihl, ihp, ihn, ihc, ihf, ihr⟩ := ih
        { s with hand := s.hand.eraseIdx m, deck := c :: s.deck }
        (by simp [hlen1]; omega)
      refine ⟨?_, ?_, ihn, ihc, ihf, ihr⟩
      · rw [filter_lt_succ_length remove hnd m, if_pos hmem]
        simp only [hlen1] at ihl
        omega
      · refine ihp.trans ?_
        have hp1 : ((s.hand.eraseIdx m) ++ c :: s.deck).Perm
            (c :: (s.hand.eraseIdx m ++ s.deck)) := List.perm_middle
        refine hp1.trans ?_
        have hp2 : (c :: s.hand.eraseIdx m).Perm s.hand := perm_cons_eraseIdx s.hand m c hc
        have hp3 : ((c :: s.hand.eraseIdx m) ++ s.deck).Perm (s.hand ++ s.deck) :=
          hp2.append_right s.deck
        simpa using hp3
    · have hmem : m ∉ remove := fun hc => hm (List.elem_iff.mpr hc)
      rw [if_neg hm]
      obtain ⟨ihl, ihp, ihn, ihc, ihf, ihr⟩ := ih s (by omega)
      refine ⟨?_, ihp, ihn, ihc, ihf, ihr⟩
      rw [filter_lt_succ_length remove hnd m, if_neg hmem]
      omega

lemma muliganKeep_spec (s : PState) (remove : List Nat) (k : Nat)
    (hlen : remove.length = k) (hnd : remove.Nodup) (hb : ∀ i ∈ remove, i < 7)
    (hhand : s.hand.length = 7) :
    ∃ s1, muliganKeep s remove k = some s1 ∧ s1.hand.length = 7 - k ∧
      (s1.hand ++ s1.deck).Perm (s.hand ++ s.deck) := by
  obtain ⟨hl, hp, _, _, _, _⟩ := bottomLoop_spec remove hnd 7 s (by omega)
  have hfull : remove.filter (fun j => j < 7) = remove := by
    rw [List.filter_eq_self]
    intro a ha
    simpa using hb a ha
  rw [hfull, hlen, hhand] at hl
  refine ⟨bottomLoop remove 7 s, ?_, by omega, hp⟩
  simp only [muliganKeep]
  rw [if_pos ⟨hlen, hb⟩, if_pos (by omega)]

lemma doMuligansGo_keep (shuffle : Nat → List Card → List Card)
    (choice : List Card → Nat → Bool → MuliganChoice) (isFirst : Bool) (k : Nat)
    (rem : List Card → Bool → List Nat)
    (hsh : ∀ n l, (shuffle n l).Perm l) (hk : k < 7)
    (hmul : ∀ h f m, m < k → choice h m f = MuliganChoice.muligan)
    (hkeep : ∀ h f, choice h k f = MuliganChoice.keepExcept (rem h f))
    (hrem : ∀ h f, (rem h f).length = k ∧ (rem h f).Nodup ∧ ∀ i ∈ rem h f, i < 7) :
    ∀ (r : Nat) (s : PState), r ≤ 7 → 7 - r ≤ k → s.hand = [] → s.deck.length = 60 →
      ∃ s1, doMuligansGo shuffle choice isFirst r s = some s1 ∧
        s1.hand.length = 7 - k ∧ (s1.hand ++ s1.deck).Perm s.deck := by
  intro r
  induction r with
  | zero => intro s _ habs _ _; omega
  | succ r ih =>
    intro s _ hcnt hhand hdeck
    have hshlen : (shuffle (7 - (r + 1)) s.deck).length = 60 := by
      rw [(hsh (7 - (r + 1)) s.deck).length_eq, hdeck]
    obtain ⟨s2, hs2, hdl, hhl, hperm, _, _, _, _⟩ :=
      drawN_spec 7 { s with deck := shuffle (7 - (r + 1)) s.deck }
        (by show 7 ≤ (shuffle (7 - (r + 1)) s.deck).length; omega)
    dsimp only at hdl hhl hperm
    have hs2hand : s2.hand.length = 7 := by
      rw [hhand] at hhl
      simpa using hhl
    have hs2perm : (s2.hand ++ s2.deck).Perm s.deck := by
      refine hperm.trans ?_
      simp only [hhand, List.nil_append]
      exact hsh (7 - (r + 1)) s.deck
    rcases Nat.lt_or_ge (7 - (r + 1)) k with hlt | hge
    · -- still mulliganing
      have hch : choice s2.hand (7 - (r + 1)) isFirst = MuliganChoice.muligan :=
        hmul s2.hand isFirst (7 - (r + 1)) hlt
      obtain ⟨s1, hs1, hlen1, hperm1⟩ := ih
        { s2 with deck := s2.deck ++ s2.hand, hand := [] }
        (by omega) (by omega) rfl
        (by simp only [List.length_append]
            show s2.deck.length + s2.hand.length = 60
            omega)
      refine ⟨s1, ?_, hlen1, ?_⟩
      · simp only [doMuligansGo, hs2, hch]
        exact hs1
      · refine hperm1.trans ?_
        have h1 : (([] : List Card) ++ (s2.deck ++ s2.hand)).Perm (s2.hand ++ s2.deck) := by
          simpa using List.perm_append_comm
        exact h1.trans hs2perm
    · -- keep round: 7 - (r + 1) = k
      have heq : 7 - (r + 1) = k := by omega
      have hch : choice s2.hand (7 - (r + 1)) isFirst =
          MuliganChoice.keepExcept (rem s2.hand isFirst) := by
        rw [heq]; exact hkeep s2.hand isFirst
      obtain ⟨hrl, hrnd, hrb⟩ := hrem s2.hand isFirst
      obtain ⟨s1, hs1, hlen1, hperm1⟩ :=
        muliganKeep_spec s2 (rem s2.hand isFirst) (7 - (r + 1))
          (by rw [hrl, heq]) hrnd hrb hs2hand
      refine ⟨s1, ?_, by rw [hlen1, heq], hperm1.trans hs2perm⟩
      simp only [doMuligansGo, hs2, hch]
      exact hs1

lemma doMuligansGo_allMul (shuffle : Nat → List Card → List Card)
    (choice : List Card → Nat → Bool → MuliganChoice) (isFirst : Bool)
    (hsh : ∀ n l, (shuffle n l).Perm l)
    (hmul : ∀ h f m, choice h m f = MuliganChoice.muligan) :
    ∀ (r : Nat) (s : PState), s.hand = [] → 7 ≤ s.deck.length →
      ∃ s1, doMuligansGo shuffle choice isFirst r s = some s1 ∧ s1.hand = [] ∧
        s1.deck.Perm s.deck := by
  intro r
  induction r with
  | zero =>
    intro s hhand _
    refine ⟨s, ?_, hhand, List.Perm.refl _⟩
    simp [doMuligansGo, List.isEmpty_iff, hhand]
  | succ r ih =>
    intro s hhand hdeck
    have hshlen : 7 ≤ (shuffle (7 - (r + 1)) s.deck).length := by
      rw [(hsh (7 - (r + 1)) s.deck).length_eq]
      exact hdeck
    obtain ⟨s2, hs2, hdl, hhl, hperm, _, _, _, _⟩ :=
      drawN_spec 7 { s with deck := shuffle (7 - (r + 1)) s.deck }
        (by show 7 ≤ (shuffle (7 - (r + 1)) s.deck).length; omega)
    dsimp only at hdl hhl hperm
    have hs2hand : s2.hand.length = 7 := by
      rw [hhand] at hhl
      simpa using hhl
    have hs2perm : (s2.hand ++ s2.deck).Perm s.deck := by
      refine hperm.trans ?_
      simp only [hhand, List.nil_append]
      exact hsh (7 - (r + 1)) s.deck
    obtain ⟨s1, hs1, hh1, hp1⟩ := ih { s2 with deck := s2.deck ++ s2.hand, hand := [] }
      rfl
      (by simp only [List.length_append]
          show 7 ≤ s2.deck.length + s2.hand.length
          omega)
    refine ⟨s1, ?_, hh1, ?_⟩
    · simp only [doMuligansGo, hs2, hmul]
      exact hs1
    · refine hp1.trans ?_
      have h1 : (s2.deck ++ s2.hand).Perm (s2.hand ++ s2.deck) := List.perm_append_comm
      exact h1.trans hs2perm

/-- C4: the mulligan procedure.  If the strategy mulligans `k` times
(0 ≤ k < 7) and then answers `KeepExcept` with exactly `k` distinct valid
hand indices, the procedure succeeds with a final hand of exactly `7 - k`
cards, and the kept hand together with the library is a permutation of the
original 60-card library (the named cards are returned to the library).
If the strategy mulligans all 7 times, the procedure ends with an empty
hand as a legal terminal state (`some`, not an error), the full library
restored up to permutation. -/
theorem c4_mulligan (shuffle : Nat → List Card → List Card)
    (choiceA choiceB : List Card → Nat → Bool → MuliganChoice) (isFirst : Bool)
    (k : Nat) (rem : List Card → Bool → List Nat) (s : PState)
    (hsh : ∀ n l, (shuffle n l).Perm l)
    (hhand : s.hand = []) (hdeck : s.deck.length = 60) :
    (k < 7 →
      (∀ h f m, m < k → choiceA h m f = MuliganChoice.muligan) →
      (∀ h f, choiceA h k f = MuliganChoice.keepExcept (rem h f)) →
      (∀ h f, (rem h f).length = k ∧ (rem h f).Nodup ∧ ∀ i ∈ rem h f, i < 7) →
      ∃ s1, do_muligans shuffle choiceA isFirst s = some s1 ∧
        s1.hand.length = 7 - k ∧ (s1.hand ++ s1.deck).Perm s.deck) ∧
    ((∀ h f m, choiceB h m f = MuliganChoice.muligan) →
      ∃ s1, do_muligans shuffle choiceB isFirst s = some s1 ∧ s1.hand = [] ∧
        s1.deck.Perm s.deck) := by
  constructor
  · intro hk hmul hkeep hrem
    exact doMuligansGo_keep shuffle choiceA isFirst k rem hsh hk hmul hkeep hrem
      7 s (by omega) (by omega) hhand hdeck
  · intro hmul
    exact doMuligansGo_allMul shuffle choiceB isFirst hsh hmul 7 s hhand (by omega)

/-- Witness for `c4_mulligan`: two mulligans then keeping five (bottoming
hand positions 0 and 1) ends with hand size 5; always mulliganing ends
with an empty hand, not an error. -/
theorem c4_mulligan_witness :
    (∃ s1, do_muligans idShuffle choiceKeep2 true c3s0 = some s1 ∧
      s1.hand.length = 7 - 2 ∧ (s1.hand ++ s1.deck).Perm c3s0.deck) ∧
    (∃ s1, do_muligans idShuffle choiceAlwaysMul true c3s0 = some s1 ∧ s1.hand = [] ∧
      s1.deck.Perm c3s0.deck) := by
  have h := c4_mulligan idShuffle choiceKeep2 choiceAlwaysMul true 2
    (fun _ _ => [0, 1]) c3s0 (fun _ _ => List.Perm.refl _) rfl (by simp [c3s0])
  constructor
  · refine h.1 (by omega) ?_ ?_ ?_
    · intro h1 f m hm
      simp only [choiceKeep2, if_pos hm]
    · intro h1 f
      simp [choiceKeep2]
    · intro h1 f
      refine ⟨rfl, by simp, ?_⟩
      intro i hi
      rcases List.mem_cons.mp hi with h | h
      · omega
      · simp at h
        omega
  · exact h.2 (fun _ _ _ => rfl)

lemma draw_nonempty_len (s s1 : PState) (h : draw s = (DrawResult.nonempty, s1)) :
    s1.deck.length + 1 = s.deck.length := by
  cases hg : s.deck.getLast? with
  | none =>
    rw [draw, hg] at h
    cases h
  | some card =>
    rw [draw, hg] at h
    have hne : s.deck ≠ [] := by
      intro hc
      rw [hc] at hg
      cases hg
    have hlen : 1 ≤ s.deck.length := by
      cases hd : s.deck with
      | nil => exact absurd hd hne
      | cons x xs => simp [hd]
    injection h with _ h2
    rw [← h2]
    simp only [List.length_dropLast]
    omega

lemma afterDamage_next (sC : Strategy) (numTurn : Nat) (cur oth c o : PState)
    (h : afterDamage sC numTurn cur oth = CoreRes.next c o) :
    c.deck = cur.deck ∧ o = oth := by
  cases hm : handle_main_phase_plays cur (sC.mainPhase (mkView numTurn cur oth)) with
  | none => simp [afterDamage, hm] at h
  | some cur1 =>
    have hdeck1 : cur1.deck = cur.deck := (main_phase_cardCount cur _ cur1 hm).2.1
    by_cases hlen : 7 < cur1.hand.length
    · cases hd : handle_discard cur1 (sC.discard (mkView numTurn cur1 oth)) with
      | none => simp [afterDamage, hm, hlen, hd] at h
      | some cur2 =>
        have hdeck2 : cur2.deck = cur1.deck := (handle_discard_spec cur1 _ cur2 hd).1
        simp only [afterDamage, hm, if_pos hlen, hd, CoreRes.next.injEq] at h
        exact ⟨by rw [← h.1]; exact hdeck2.trans hdeck1, h.2.symm⟩
    · simp only [afterDamage, hm, if_neg hlen, CoreRes.next.injEq] at h
      exact ⟨by rw [← h.1]; exact hdeck1, h.2.symm⟩

lemma afterBlocks_next (sC : Strategy) (numTurn curIdx : Nat) (cur oth c o : PState)
    (allBlockers : List (Nat × List Nat))
    (h : afterBlocks sC numTurn curIdx cur oth allBlockers = CoreRes.next c o) :
    c.deck = cur.deck ∧ o.deck = oth.deck := by
  cases hr : resolveCombat cur.creatures oth.creatures allBlockers with
  | none => simp [afterBlocks, hr] at h
  | some r =>
    cases hd1 : die cur r.2.1 with
    | none => simp [afterBlocks, hr, hd1] at h
    | some cur1 =>
      cases hd2 : die { oth with life := oth.life - (r.1 : Int) } r.2.2 with
      | none => simp [afterBlocks, hr, hd1, hd2] at h
      | some oth1 =>
        have hdc : cur1.deck = cur.deck := (die_spec _ _ _ hd1).1
        have hdo : oth1.deck = oth.deck := (die_spec _ _ _ hd2).1
        by_cases hlife : oth1.life ≤ 0
        · simp [afterBlocks, hr, hd1, hd2, hlife] at h
        · simp only [afterBlocks, hr, hd1, hd2, if_neg hlife] at h
          obtain ⟨h1, h2⟩ := afterDamage_next sC numTurn cur1 oth1 c o h
          exact ⟨h1.trans hdc, by rw [h2]; exact hdo⟩

lemma afterAttack_next (sC sO : Strategy) (numTurn curIdx : Nat) (cur oth c o : PState)
    (attackers : List Nat)
    (h : afterAttack sC sO numTurn curIdx cur oth attackers = CoreRes.next c o) :
    c.deck = cur.deck ∧ o.deck = oth.deck := by
  cases hb : buildArrangement cur.creatures.length oth.creatures [] []
      (sO.block (mkView numTurn oth cur) attackers) with
  | none => simp [afterAttack, hb] at h
  | some arrangement =>
    by_cases hord : checkOrdering arrangement
        (sC.orderBlockers (mkView numTurn cur oth) arrangement)
    · simp only [afterAttack, hb, if_pos hord] at h
      exact afterBlocks_next sC numTurn curIdx cur oth c o _ h
    · simp [afterAttack, hb, hord] at h

lemma afterDraw_next (sC sO : Strategy) (numTurn curIdx : Nat) (curD oth c o : PState)
    (h : afterDraw sC sO numTurn curIdx curD oth = CoreRes.next c o) :
    c.deck = curD.deck ∧ o.deck = oth.deck := by
  cases ht : tapAttackers (sortHand curD).creatures
      (sC.attack (mkView numTurn (sortHand curD) oth)) with
  | none => simp [afterDraw, ht] at h
  | some tapped =>
    simp only [afterDraw, ht] at h
    obtain ⟨h1, h2⟩ := afterAttack_next sC sO numTurn curIdx _ oth c o _ h
    exact ⟨h1, h2⟩

lemma playTurnCore_next (sC sO : Strategy) (numTurn curIdx : Nat) (cur oth c o : PState)
    (h : playTurnCore sC sO numTurn curIdx cur oth = CoreRes.next c o) :
    o.deck = oth.deck ∧
    ((numTurn = 1 ∧ curIdx = 0) → c.deck = cur.deck) ∧
    (¬(numTurn = 1 ∧ curIdx = 0) → c.deck.length + 1 = cur.deck.length) := by
  by_cases hskip : numTurn = 1 ∧ curIdx = 0
  · simp only [playTurnCore, if_pos hskip] at h
    obtain ⟨h1, h2⟩ := afterDraw_next sC sO numTurn curIdx _ oth c o h
    exact ⟨h2, fun _ => h1, fun hc => absurd hskip hc⟩
  · simp only [playTurnCore, if_neg hskip] at h
    cases hd : draw (untap cur) with
    | mk res cur1 =>
      cases res with
      | empty => rw [hd] at h; simp at h
      | nonempty =>
        rw [hd] at h
        obtain ⟨h1, h2⟩ := afterDraw_next sC sO numTurn curIdx cur1 oth c o h
        have hlen : cur1.deck.length + 1 = (untap cur).deck.length :=
          draw_nonempty_len (untap cur) cur1 hd
        refine ⟨h2, fun hc => absurd hc hskip, fun _ => ?_⟩
        rw [h1]
        exact hlen

lemma playTurn_next_measure (sA sB : Strategy) (g g1 : GState)
    (h : playTurn sA sB g = TurnRes.next g1) (hturn : 1 ≤ g.numTurn) :
    gmeasure g1 < gmeasure g ∧ 1 ≤ g1.numTurn := by
  by_cases hi : g.currentPlayerIndex = 0
  · cases hcore : playTurnCore sA sB g.numTurn 0 g.playerStates.1 g.playerStates.2 with
    | breach => simp [playTurn, hi, hcore] at h
    | decked w c o => simp [playTurn, hi, hcore] at h
    | lifeLoss w c o => simp [playTurn, hi, hcore] at h
    | next c o =>
      simp only [playTurn, hi, if_true, hcore, TurnRes.next.injEq] at h
      obtain ⟨ho, hsk, hdr⟩ := playTurnCore_next sA sB g.numTurn 0
        g.playerStates.1 g.playerStates.2 c o hcore
      have hnew : gmeasure g1 = c.deck.length + o.deck.length := by
        rw [← h]
        simp [gmeasure, reassemble]
      have hnum : g1.numTurn = g.numTurn := by
        rw [← h]
        simp
      rw [hnew]
      have holen : o.deck.length = g.playerStates.2.deck.length := by rw [ho]
      refine ⟨?_, by rw [hnum]; omega⟩
      by_cases h1 : g.numTurn = 1
      · have hclen : c.deck.length = g.playerStates.1.deck.length := by
          rw [hsk ⟨h1, rfl⟩]
        have hold : gmeasure g = g.playerStates.1.deck.length +
            g.playerStates.2.deck.length + 1 := by
          simp [gmeasure, hi, h1]
        omega
      · have hdrew := hdr (by simp [h1])
        have hold : gmeasure g = g.playerStates.1.deck.length +
            g.playerStates.2.deck.length := by
          simp [gmeasure, hi, h1]
        omega
  · cases hcore : playTurnCore sB sA g.numTurn g.currentPlayerIndex
        g.playerStates.2 g.playerStates.1 with
    | breach => simp [playTurn, hi, hcore] at h
    | decked w c o => simp [playTurn, hi, hcore] at h
    | lifeLoss w c o => simp [playTurn, hi, hcore] at h
    | next c o =>
      simp only [playTurn, hi, if_false, hcore, TurnRes.next.injEq] at h
      obtain ⟨ho, hsk, hdr⟩ := playTurnCore_next sB sA g.numTurn g.currentPlayerIndex
        g.playerStates.2 g.playerStates.1 c o hcore
      have hdrew := hdr (by intro hc; exact hi hc.2)
      have hidx : 1 - g.currentPlayerIndex = 0 := by omega
      have hnt : ¬ (g.numTurn + 1 = 1) := by omega
      have hnew : gmeasure g1 = o.deck.length + c.deck.length := by
        rw [← h]
        simp [gmeasure, reassemble, hi, hidx, hnt]
      have hnum : g1.numTurn = g.numTurn + 1 := by
        rw [← h]
        simp [hidx]
      have hold : gmeasure g = g.playerStates.1.deck.length +
          g.playerStates.2.deck.length := by
        simp [gmeasure, hi]
      have holen : o.deck.length = g.playerStates.1.deck.length := by rw [ho]
      refine ⟨by rw [hnew]; omega, by rw [hnum]; omega⟩

lemma playLoop_finishes (sA sB : Strategy) :
    ∀ (n : Nat) (g : GState), gmeasure g < n → 1 ≤ g.numTurn →
      (playLoop sA sB n g).isFinished = true := by
  intro n
  induction n with
  | zero => intro g h _; omega
  | succ m ih =>
    intro g hm ht
    cases hpt : playTurn sA sB g with
    | breach => simp [playLoop, hpt, PlayRes.isFinished]
    | decked w g1 => simp [playLoop, hpt, PlayRes.isFinished]
    | lifeLoss w g1 => simp [playLoop, hpt, PlayRes.isFinished]
    | next g1 =>
      obtain ⟨hlt, ht1⟩ := playTurn_next_measure sA sB g g1 hpt ht
      simp only [playLoop, hpt]
      exact ih g1 (by omega) ht1

/-- C8: the turn loop always reaches a terminal result within a number of
turns bounded by the two library sizes (plus the one drawless first turn):
with that much fuel the loop never comes back `next`.  The only results
are the two match outcomes `decked` and `lifeLoss` (no draw/tie exists in
the result type) and `breach`, the fatal strategy-contract panic that the
spec classifies as a hard failure rather than a match result. -/
theorem c8_termination (sA sB : Strategy) (g : GState) (h : 1 ≤ g.numTurn) :
    playLoop sA sB (gmeasure g + 1) g = PlayRes.breach ∨
    (∃ w, playLoop sA sB (gmeasure g + 1) g = PlayRes.decked w) ∨
    (∃ w, playLoop sA sB (gmeasure g + 1) g = PlayRes.lifeLoss w) := by
  have hf := playLoop_finishes sA sB (gmeasure g + 1) g (by omega) h
  cases hres : playLoop sA sB (gmeasure g + 1) g with
  | breach => exact Or.inl rfl
  | decked w => exact Or.inr (Or.inl ⟨w, rfl⟩)
  | lifeLoss w => exact Or.inr (Or.inr ⟨w, rfl⟩)
  | outOfFuel g1 => rw [hres] at hf; simp [PlayRes.isFinished] at hf

/-- Witness for `c8_termination`: a match between two passive strategies
from empty libraries ends within the bound (player 1 decks out on the
second turn). -/
theorem c8_termination_witness :
    playLoop passStrategy passStrategy (gmeasure g8 + 1) g8 = PlayRes.breach ∨
    (∃ w, playLoop passStrategy passStrategy (gmeasure g8 + 1) g8 = PlayRes.decked w) ∨
    (∃ w, playLoop passStrategy passStrategy (gmeasure g8 + 1) g8 = PlayRes.lifeLoss w) :=
  c8_termination passStrategy passStrategy g8 (by decide)

lemma playTurn_setPrintout (sA sB : Strategy) (p : Printout) (g : GState) :
    playTurn sA sB (setPrintout p g) =
      match playTurn sA sB g with
      | TurnRes.breach => TurnRes.breach
      | TurnRes.decked w g1 => TurnRes.decked w (setPrintout p g1)
      | TurnRes.lifeLoss w g1 => TurnRes.lifeLoss w (setPrintout p g1)
      | TurnRes.next g1 => TurnRes.next (setPrintout p g1) := by
  cases hcore : playTurnCore (if g.currentPlayerIndex = 0 then sA else sB)
      (if g.currentPlayerIndex = 0 then sB else sA) g.numTurn g.currentPlayerIndex
      (if g.currentPlayerIndex = 0 then g.playerStates.1 else g.playerStates.2)
      (if g.currentPlayerIndex = 0 then g.playerStates.2 else g.playerStates.1) <;>
    simp [playTurn, setPrintout, reassemble, hcore]

lemma playLoop_setPrintout (sA sB : Strategy) (p : Printout) :
    ∀ (n : Nat) (g : GState),
      (playLoop sA sB n (setPrintout p g)).outcome = (playLoop sA sB n g).outcome := by
  intro n
  induction n with
  | zero => intro g; rfl
  | succ m ih =>
    intro g
    cases hpt : playTurn sA sB g with
    | breach => simp [playLoop, playTurn_setPrintout, hpt, PlayRes.outcome]
    | decked w g1 => simp [playLoop, playTurn_setPrintout, hpt, PlayRes.outcome]
    | lifeLoss w g1 => simp [playLoop, playTurn_setPrintout, hpt, PlayRes.outcome]
    | next g1 =>
      simp only [playLoop, playTurn_setPrintout, hpt]
      exact ih g1

/-- C9: two runs of the same match that differ only in the observer
setting produce the same outcome (winner and cause), for any strategies,
fuel and start state — the observer does not alter the simulation; and
with the observer off, `handle_printout` emits nothing at all (it is in
any case a read-only projection of the state). -/
theorem c9_observer_independence (sA sB : Strategy) (n : Nat) (g : GState)
    (p1 p2 : Printout) :
    (playLoop sA sB n (setPrintout p1 g)).outcome =
      (playLoop sA sB n (setPrintout p2 g)).outcome ∧
    (∀ phase, handle_printout (setPrintout Printout.nothing g) phase = []) := by
  constructor
  · rw [playLoop_setPrintout, playLoop_setPrintout]
  · intro phase
    rfl

end SimpleMagic
